import Mathlib

/-!
# Verification of the incremental text-analysis engine

This file gives a shallow embedding, in Lean 4, of the algorithmic core of the
repository's incremental text-analysis engine:

* the range merger `mergeRangesInPlace` (linters/md-lint.ts),
* the table-of-contents renumbering `generateToc` and heading-ID derivation
  `headingToID` (the table-of-contents field),
* the place-to-offset translation `placeToOffset` (linters/md-lint.ts),
* the block expansion `getSurroundingLinePosition` (linters/md-lint.ts),
* the grammar-linter match filter of `ltLinter` (linters/language-tool.ts),
* the diagnostic reconciliation loops of `mdLint` and `ltLinter`,
* the incremental counter `countField` (plugins/statistics-fields.ts) and the
  early-return branches of `countField.update` and `tocField.update`.

External collaborators that are not part of the repository sources (the
Markdown parser, the counting helper `countAll`, the editor's `wordAt` and
position mapping) are modelled from the specification; each such definition
carries a doc comment starting with `Modelled from the spec:`.

Theorems about each component follow the definitions.
-/

namespace Zettlr

/-! ## Ranges

`{ from: number, to: number }` objects as used throughout the linter helpers.
The TypeScript field `from` is a Lean keyword, so the fields are named
`fromPos` / `toPos`. -/

structure MRange where
  fromPos : Nat
  toPos : Nat
deriving DecidableEq, Repr

/-- A position `x` lies inside range `r` (both endpoints inclusive, matching
the overlap tests the source performs on these closed ranges). -/
def inRange (r : MRange) (x : Nat) : Prop :=
  r.fromPos ≤ x ∧ x ≤ r.toPos

instance (r : MRange) (x : Nat) : Decidable (inRange r x) :=
  inferInstanceAs (Decidable (_ ∧ _))

/-- A position is covered by (the union of) a list of ranges. -/
def covered (l : List MRange) (x : Nat) : Prop :=
  ∃ r ∈ l, inRange r x

instance (l : List MRange) (x : Nat) : Decidable (covered l x) :=
  List.decidableBEx _ l

/-- A position is covered by a list of ranges, each expanded by the gap
tolerance `g` on both sides. -/
def coveredExpand (g : Nat) (l : List MRange) (x : Nat) : Prop :=
  ∃ r ∈ l, r.fromPos - g ≤ x ∧ x ≤ r.toPos + g

instance (g : Nat) (l : List MRange) (x : Nat) : Decidable (coveredExpand g l x) :=
  List.decidableBEx _ l

/-- Consecutive ranges keep a gap of at least 2 (`next.from >= current.to + 2`),
i.e. they neither overlap nor touch under the merger's gap tolerance of 1. -/
def Gapped (l : List MRange) : Prop :=
  List.Chain' (fun a b => a.toPos + 2 ≤ b.fromPos) l

/-- Sorted ascending by the `from` component. -/
def SortedByFrom (l : List MRange) : Prop :=
  List.Chain' (fun a b => a.fromPos ≤ b.fromPos) l

/-- Comparison used by `ranges.sort((a, b) => a.from - b.from)`. -/
def rangeLE (a b : MRange) : Prop := a.fromPos ≤ b.fromPos

instance : DecidableRel rangeLE := fun a b => Nat.decLe a.fromPos b.fromPos

instance : IsTotal MRange rangeLE := ⟨fun a b => Nat.le_total a.fromPos b.fromPos⟩

instance : IsTrans MRange rangeLE := ⟨fun _ _ _ h h2 => Nat.le_trans h h2⟩

/-- The sorting step `ranges.sort((a, b) => a.from - b.from)` of
`mergeRangesInPlace` (md-lint.ts): sort ascending by `from`. -/
def sortRanges (l : List MRange) : List MRange :=
  List.insertionSort rangeLE l

/-- The merging sweep of `mergeRangesInPlace` (md-lint.ts): `cur` plays the
role of `ranges[writeIndex]`; `next.from <= current.to + 1` merges `next` into
`cur` by `current.to = Math.max(current.to, next.to)`, otherwise `cur` is
emitted and `next` becomes the new accumulator. -/
def mergeLoop (cur : MRange) : List MRange → List MRange
  | [] => [cur]
  | next :: rest =>
    if next.fromPos ≤ cur.toPos + 1 then
      mergeLoop ⟨cur.fromPos, max cur.toPos next.toPos⟩ rest
    else
      cur :: mergeLoop next rest

/-- `mergeRangesInPlace` (md-lint.ts, also shared by the language-tool
linter): sort by `from`, then a single left-to-right sweep merging any
range that starts at most one position after the accumulator's end.  The
in-place `writeIndex` loop of the source is rendered functionally. -/
def mergeRangesInPlace (ranges : List MRange) : List MRange :=
  if ranges.length ≤ 1 then ranges
  else
    match sortRanges ranges with
    | [] => []
    | r :: rs => mergeLoop r rs

lemma covered_cons {r : MRange} {l : List MRange} {x : Nat} :
    covered (r :: l) x ↔ (inRange r x ∨ covered l x) := by
  simp [covered]

lemma mergeLoop_head (cur : MRange) (rest : List MRange) :
    ∃ t tl, mergeLoop cur rest = ⟨cur.fromPos, t⟩ :: tl ∧ cur.toPos ≤ t := by
  induction rest generalizing cur with
  | nil => exact ⟨cur.toPos, [], rfl, Nat.le_refl _⟩
  | cons next rest ih =>
    by_cases h : next.fromPos ≤ cur.toPos + 1
    · obtain ⟨t, tl, heq, hle⟩ := ih ⟨cur.fromPos, max cur.toPos next.toPos⟩
      refine ⟨t, tl, ?_, ?_⟩
      · simpa [mergeLoop, h] using heq
      · exact Nat.le_trans (Nat.le_max_left _ _) hle
    · exact ⟨cur.toPos, mergeLoop next rest, by simp [mergeLoop, h], Nat.le_refl _⟩

lemma mergeLoop_gapped (cur : MRange) (rest : List MRange) :
    Gapped (mergeLoop cur rest) := by
  induction rest generalizing cur with
  | nil => simp [mergeLoop, Gapped]
  | cons next rest ih =>
    by_cases h : next.fromPos ≤ cur.toPos + 1
    · simpa [mergeLoop, h] using ih ⟨cur.fromPos, max cur.toPos next.toPos⟩
    · obtain ⟨t, tl, heq, _⟩ := mergeLoop_head next rest
      have hgap : cur.toPos + 2 ≤ next.fromPos := Nat.lt_of_not_le h
      simp only [mergeLoop, h, if_false, Gapped]
      rw [heq]
      refine List.Chain'.cons hgap ?_
      have := ih next
      rw [Gapped, heq] at this
      exact this

lemma mergeLoop_wf (cur : MRange) (rest : List MRange)
    (hc : cur.fromPos ≤ cur.toPos) (hr : ∀ r ∈ rest, r.fromPos ≤ r.toPos) :
    ∀ r ∈ mergeLoop cur rest, r.fromPos ≤ r.toPos := by
  induction rest generalizing cur with
  | nil => simpa [mergeLoop] using hc
  | cons next rest ih =>
    by_cases h : next.fromPos ≤ cur.toPos + 1
    · have : cur.fromPos ≤ max cur.toPos next.toPos :=
        Nat.le_trans hc (Nat.le_max_left _ _)
      simpa [mergeLoop, h] using
        ih ⟨cur.fromPos, max cur.toPos next.toPos⟩ this
          (fun r hrr => hr r (List.mem_cons_of_mem _ hrr))
    · intro r hrm
      simp only [mergeLoop, h, if_false, List.mem_cons] at hrm
      rcases hrm with rfl | hrm
      · exact hc
      · exact ih next (hr next (List.mem_cons_self _ _))
          (fun r hrr => hr r (List.mem_cons_of_mem _ hrr)) r hrm

lemma mergeLoop_covered (cur : MRange) (rest : List MRange)
    (hc : cur.fromPos ≤ cur.toPos) (hr : ∀ r ∈ rest, r.fromPos ≤ r.toPos)
    (hs : List.Pairwise rangeLE (cur :: rest)) (x : Nat) :
    covered (mergeLoop cur rest) x ↔ (inRange cur x ∨ covered rest x) := by
  induction rest generalizing cur with
  | nil => simp [mergeLoop, covered]
  | cons next rest ih =>
    have hcn : cur.fromPos ≤ next.fromPos :=
      (List.pairwise_cons.mp hs).1 next (List.mem_cons_self _ _)
    have hnextwf : next.fromPos ≤ next.toPos := hr next (List.mem_cons_self _ _)
    have hrest : ∀ r ∈ rest, r.fromPos ≤ r.toPos :=
      fun r hrr => hr r (List.mem_cons_of_mem _ hrr)
    by_cases h : next.fromPos ≤ cur.toPos + 1
    · have hmerge : inRange ⟨cur.fromPos, max cur.toPos next.toPos⟩ x
          ↔ (inRange cur x ∨ inRange next x) := by
        constructor
        · rintro ⟨h1, h2⟩
          by_cases hx : x ≤ cur.toPos
          · exact Or.inl ⟨h1, hx⟩
          · have hxgt : cur.toPos < x := Nat.lt_of_not_le hx
            have hfx : next.fromPos ≤ x := Nat.le_trans h hxgt
            have htx : x ≤ next.toPos := by
              rcases le_max_iff.mp h2 with h3 | h3
              · exact absurd h3 hx
              · exact h3
            exact Or.inr ⟨hfx, htx⟩
        · rintro (⟨h1, h2⟩ | ⟨h1, h2⟩)
          · exact ⟨h1, Nat.le_trans h2 (Nat.le_max_left _ _)⟩
          · exact ⟨Nat.le_trans hcn h1, Nat.le_trans h2 (Nat.le_max_right _ _)⟩
      have hs2 : List.Pairwise rangeLE
          ((⟨cur.fromPos, max cur.toPos next.toPos⟩ : MRange) :: rest) := by
        have := (List.pairwise_cons.mp hs)
        refine List.pairwise_cons.mpr ⟨?_, (List.pairwise_cons.mp this.2).2⟩
        intro r hrr
        exact this.1 r (List.mem_cons_of_mem _ hrr)
      have hc2 : (⟨cur.fromPos, max cur.toPos next.toPos⟩ : MRange).fromPos
          ≤ (⟨cur.fromPos, max cur.toPos next.toPos⟩ : MRange).toPos :=
        Nat.le_trans hc (Nat.le_max_left _ _)
      have := ih ⟨cur.fromPos, max cur.toPos next.toPos⟩ hc2 hrest hs2
      simp only [mergeLoop, h, if_true]
      rw [this, hmerge, covered_cons, or_assoc]
    · have hs2 : List.Pairwise rangeLE (next :: rest) :=
        (List.pairwise_cons.mp hs).2
      have hnext := ih next hnextwf hrest hs2
      simp only [mergeLoop, h, if_false]
      rw [covered_cons, hnext, covered_cons]

lemma covered_of_perm {l l2 : List MRange} (h : l.Perm l2) (x : Nat) :
    covered l x ↔ covered l2 x := by
  constructor <;> rintro ⟨r, hrm, hrx⟩
  · exact ⟨r, h.mem_iff.mp hrm, hrx⟩
  · exact ⟨r, h.mem_iff.mpr hrm, hrx⟩

lemma covered_imp_expand {l : List MRange} {x g : Nat} (h : covered l x) :
    coveredExpand g l x := by
  obtain ⟨r, hrm, h1, h2⟩ := h
  exact ⟨r, hrm, Nat.le_trans (Nat.sub_le _ _) h1, Nat.le_trans h2 (Nat.le_add_right _ _)⟩

lemma gapped_wf_sorted {l : List MRange}
    (hg : Gapped l) (hw : ∀ r ∈ l, r.fromPos ≤ r.toPos) : SortedByFrom l := by
  induction l with
  | nil => simp [SortedByFrom]
  | cons a l ih =>
    cases l with
    | nil => simp [SortedByFrom]
    | cons b l2 =>
      rw [Gapped, List.chain'_cons] at hg
      refine List.chain'_cons.mpr ⟨?_, ?_⟩
      · have ha : a.fromPos ≤ a.toPos := hw a (List.mem_cons_self _ _)
        exact Nat.le_trans ha (Nat.le_trans (Nat.le_add_right _ 2) hg.1)
      · exact ih hg.2 (fun r hrr => hw r (List.mem_cons_of_mem _ hrr))

lemma sortRanges_pairwise (ranges : List MRange) :
    List.Pairwise rangeLE (sortRanges ranges) :=
  List.sorted_insertionSort rangeLE ranges

lemma sortRanges_perm (ranges : List MRange) :
    (sortRanges ranges).Perm ranges :=
  List.perm_insertionSort rangeLE ranges

/-- C2.  For every finite list of ranges, each with `from <= to`, the range
merger `mergeRangesInPlace` produces a list that is (i) sorted ascending by
`from`, (ii) pairwise-disjoint under the gap tolerance of 1 — every
consecutive pair of output ranges has a gap of at least 2 — and (iii) whose
union equals the union of the input up to the gap tolerance: no input position
is lost, and no output position lies outside the input union expanded by the
gap tolerance of 1.  (The proof of (iii) in fact establishes that the output
covers exactly the same positions as the input.) -/
theorem mergeRangesInPlace_correct (ranges : List MRange)
    (hwf : ∀ r ∈ ranges, r.fromPos ≤ r.toPos) :
    SortedByFrom (mergeRangesInPlace ranges) ∧
    Gapped (mergeRangesInPlace ranges) ∧
    (∀ x, covered ranges x → covered (mergeRangesInPlace ranges) x) ∧
    (∀ x, covered (mergeRangesInPlace ranges) x → coveredExpand 1 ranges x) := by
  by_cases hlen : ranges.length ≤ 1
  · have hout : mergeRangesInPlace ranges = ranges := by
      simp [mergeRangesInPlace, hlen]
    rw [hout]
    match ranges with
    | [] =>
      refine ⟨List.chain'_nil, List.chain'_nil, fun x hx => hx, fun x hx => ?_⟩
      exact covered_imp_expand hx
    | [a] =>
      refine ⟨List.chain'_singleton a, List.chain'_singleton a,
        fun x hx => hx, fun x hx => covered_imp_expand hx⟩
    | a :: b :: l => simp at hlen
  · rcases hsr : sortRanges ranges with _ | ⟨r, rs⟩
    · have := (sortRanges_perm ranges).length_eq
      rw [hsr] at this
      have : ranges.length = 0 := this.symm
      omega
    · have hout : mergeRangesInPlace ranges = mergeLoop r rs := by
        simp [mergeRangesInPlace, hlen, hsr]
      have hpw : List.Pairwise rangeLE (r :: rs) := by
        have := sortRanges_pairwise ranges
        rwa [hsr] at this
      have hwf2 : ∀ s ∈ (r :: rs), s.fromPos ≤ s.toPos := by
        intro s hsm
        refine hwf s ?_
        have := (sortRanges_perm ranges).mem_iff (a := s)
        rw [hsr] at this
        exact this.mp hsm
      have hrwf : r.fromPos ≤ r.toPos := hwf2 r (List.mem_cons_self _ _)
      have hrswf : ∀ s ∈ rs, s.fromPos ≤ s.toPos :=
        fun s hsm => hwf2 s (List.mem_cons_of_mem _ hsm)
      have hcov : ∀ x, covered (mergeLoop r rs) x ↔ covered ranges x := by
        intro x
        rw [mergeLoop_covered r rs hrwf hrswf hpw x, ← covered_cons, ← hsr]
        exact covered_of_perm (sortRanges_perm ranges) x
      have hgap : Gapped (mergeLoop r rs) := mergeLoop_gapped r rs
      have hwfout : ∀ s ∈ mergeLoop r rs, s.fromPos ≤ s.toPos :=
        mergeLoop_wf r rs hrwf hrswf
      rw [hout]
      refine ⟨gapped_wf_sorted hgap hwfout, hgap, ?_, ?_⟩
      · exact fun x hx => (hcov x).mpr hx
      · exact fun x hx => covered_imp_expand ((hcov x).mp hx)

/-- Witness for C2 at a concrete input: merging `[{5,7},{0,2},{3,4}]`
(well-formed ranges) satisfies all four conclusions. -/
theorem mergeRangesInPlace_correct_witness :
    SortedByFrom (mergeRangesInPlace [⟨5,7⟩, ⟨0,2⟩, ⟨3,4⟩]) ∧
    Gapped (mergeRangesInPlace [⟨5,7⟩, ⟨0,2⟩, ⟨3,4⟩]) ∧
    (∀ x, covered [⟨5,7⟩, ⟨0,2⟩, ⟨3,4⟩] x →
      covered (mergeRangesInPlace [⟨5,7⟩, ⟨0,2⟩, ⟨3,4⟩]) x) ∧
    (∀ x, covered (mergeRangesInPlace [⟨5,7⟩, ⟨0,2⟩, ⟨3,4⟩]) x →
      coveredExpand 1 [⟨5,7⟩, ⟨0,2⟩, ⟨3,4⟩] x) :=
  mergeRangesInPlace_correct [⟨5,7⟩, ⟨0,2⟩, ⟨3,4⟩] (by decide)

/-! ## Table-of-contents renumbering (`generateToc`, table-of-contents field)

`ToCEntry` and `generateToc` from the table-of-contents state field.  The
source mutates `entry.renderedLevel` while walking the list with six counters
`h1..h6`; this is rendered as a fold threading the counters. -/

structure ToCEntry where
  line : Nat
  pos : Nat
  text : String
  level : Nat
  renderedLevel : String
  id : String
deriving DecidableEq, Repr

structure TocCounters where
  h1 : Nat
  h2 : Nat
  h3 : Nat
  h4 : Nat
  h5 : Nat
  h6 : Nat
deriving DecidableEq, Repr

/-- `[h1, h2, ...].join('.')` as used in `generateToc`. -/
def joinLevels (l : List Nat) : String :=
  String.intercalate "." (l.map toString)

/-- One iteration of the `switch (entry.level)` body of `generateToc`:
increment the counter of the entry's level, reset all deeper counters to
zero, and render the dotted numbering from the counters up to that level.
Levels outside 1–6 fall through to `default` and leave everything
unchanged. -/
def generateTocStep (c : TocCounters) (entry : ToCEntry) : TocCounters × ToCEntry :=
  match entry.level with
  | 1 =>
    let c2 : TocCounters := ⟨c.h1 + 1, 0, 0, 0, 0, 0⟩
    (c2, { entry with renderedLevel := joinLevels [c2.h1] })
  | 2 =>
    let c2 : TocCounters := ⟨c.h1, c.h2 + 1, 0, 0, 0, 0⟩
    (c2, { entry with renderedLevel := joinLevels [c2.h1, c2.h2] })
  | 3 =>
    let c2 : TocCounters := ⟨c.h1, c.h2, c.h3 + 1, 0, 0, 0⟩
    (c2, { entry with renderedLevel := joinLevels [c2.h1, c2.h2, c2.h3] })
  | 4 =>
    let c2 : TocCounters := ⟨c.h1, c.h2, c.h3, c.h4 + 1, 0, 0⟩
    (c2, { entry with renderedLevel := joinLevels [c2.h1, c2.h2, c2.h3, c2.h4] })
  | 5 =>
    let c2 : TocCounters := ⟨c.h1, c.h2, c.h3, c.h4, c.h5 + 1, 0⟩
    (c2, { entry with renderedLevel := joinLevels [c2.h1, c2.h2, c2.h3, c2.h4, c2.h5] })
  | 6 =>
    let c2 : TocCounters := ⟨c.h1, c.h2, c.h3, c.h4, c.h5, c.h6 + 1⟩
    (c2, { entry with renderedLevel := joinLevels [c2.h1, c2.h2, c2.h3, c2.h4, c2.h5, c2.h6] })
  | _ => (c, entry)

def generateTocGo (c : TocCounters) : List ToCEntry → List ToCEntry
  | [] => []
  | e :: rest =>
    let p := generateTocStep c e
    p.2 :: generateTocGo p.1 rest

/-- `generateToc` (table-of-contents field): assign `renderedLevel` to every
entry via the six-counter state machine, starting from all-zero counters. -/
def generateToc (headings : List ToCEntry) : List ToCEntry :=
  generateTocGo ⟨0, 0, 0, 0, 0, 0⟩ headings

/-- The heading list of the claim: levels `[1, 2, 2, 1, 3]` in order. -/
def tocSample : List ToCEntry :=
  [⟨1, 0, "", 1, "", ""⟩, ⟨2, 0, "", 2, "", ""⟩, ⟨3, 0, "", 2, "", ""⟩,
   ⟨4, 0, "", 1, "", ""⟩, ⟨5, 0, "", 3, "", ""⟩]

/-- C3, counterexample.  The claim asserts that headings at levels
`[1,2,2,1,3]` receive renderedLevel `["1","1.1","1.2","2","2.1"]`; the
six-counter machine of `generateToc` in fact renders the final level-3
heading as `"2.0.1"` (the level-2 counter was reset to 0 by the second
level-1 heading and is still printed), so the claimed output is wrong. -/
theorem generateToc_claimed_levels_false :
    (generateToc tocSample).map ToCEntry.renderedLevel
      ≠ ["1", "1.1", "1.2", "2", "2.1"] := by
  decide

/-- C3, amended.  `generateToc` assigns `renderedLevel` via the six-counter
state machine in which incrementing a level's counter resets all deeper
counters to zero and prints the counters up to the entry's level; for
headings at levels `[1,2,2,1,3]` the assigned values are
`["1","1.1","1.2","2","2.0.1"]` (not `"2.1"` for the last entry).  The
renumbering touches no field other than `renderedLevel`. -/
theorem generateToc_renders_sample :
    (generateToc tocSample).map ToCEntry.renderedLevel
      = ["1", "1.1", "1.2", "2", "2.0.1"] ∧
    ∀ entries : List ToCEntry,
      (generateToc entries).map
          (fun e => (e.line, e.pos, e.text, e.level, e.id))
        = entries.map (fun e => (e.line, e.pos, e.text, e.level, e.id)) := by
  refine ⟨by decide, ?_⟩
  intro entries
  suffices h : ∀ c entries,
      (generateTocGo c entries).map
          (fun e => (e.line, e.pos, e.text, e.level, e.id))
        = entries.map (fun e => (e.line, e.pos, e.text, e.level, e.id)) from
    h _ entries
  intro c entries
  induction entries generalizing c with
  | nil => rfl
  | cons e rest ih =>
    have hstep : ((generateTocStep c e).2.line, (generateTocStep c e).2.pos,
        (generateTocStep c e).2.text, (generateTocStep c e).2.level,
        (generateTocStep c e).2.id)
        = (e.line, e.pos, e.text, e.level, e.id) := by
      unfold generateTocStep
      rcases e with ⟨l, p, t, lv, r, i⟩
      match lv with
      | 0 => rfl
      | 1 => rfl
      | 2 => rfl
      | 3 => rfl
      | 4 => rfl
      | 5 => rfl
      | 6 => rfl
      | n + 7 => rfl
    simp only [generateTocGo, List.map_cons, ih, hstep]

/-! ## Place-to-offset translation (`placeToOffset`, md-lint.ts)

The document (`Text`) is modelled as its list of lines; `line(n).from` is the
sum of the lengths of the earlier lines plus one separator each, and the
lookup fails (the library throws a `RangeError`) when `n` is outside
`1..lines`.  A thrown error is modelled as `none`. -/

/-- Start offset of the 1-indexed line `n` of a document given as its list of
lines (lines are joined by single newline characters). -/
def lineStart (doc : List String) (n : Nat) : Nat :=
  ((doc.take (n - 1)).map (fun s => s.length + 1)).sum

/-- End offset (exclusive of the newline) of the 1-indexed line `n`. -/
def lineEnd (doc : List String) (n : Nat) : Nat :=
  lineStart doc n + (doc.getD (n - 1) "").length

/-- `source.line(n)` of the editor's `Text`: defined for `1 <= n <= lines`,
throws otherwise (modelled as `none`); returns the line's start offset. -/
def lineObjInt (doc : List String) (l : Int) : Option Nat :=
  if 1 ≤ l ∧ l ≤ doc.length then some (lineStart doc l.toNat) else none

/-- A `Point` of the style-lint collaborator: 1-indexed `line`/`column`,
either of which may be `null` (modelled as `none`). -/
structure UnistPoint where
  line : Option Int
  column : Option Int
deriving DecidableEq, Repr

/-- A `place` is a single point or a start/end pair (`Position`). -/
inductive UnistPlace where
  | point (p : UnistPoint)
  | position (start finish : UnistPoint)
deriving DecidableEq, Repr

/-- The point branch of `placeToOffset` (md-lint.ts): destructure
`{ column, line }`; if either is `null`, return the degenerate `{from: 0,
to: 0}`; otherwise `offset = source.line(line).from + column - 1` and both
`from` and `to` are that offset. -/
def pointToOffset (p : UnistPoint) (doc : List String) : Option (Int × Int) :=
  match p.column, p.line with
  | some c, some l =>
    match lineObjInt doc l with
    | some off => some ((off : Int) + c - 1, (off : Int) + c - 1)
    | none => none
  | _, _ => some (0, 0)

/-- `placeToOffset` (md-lint.ts).  `undefined` places yield `{from: 0, to:
0}`; a `Position` combines the `from` of its start point with the `to` of its
end point (the source's self-recursion on the two points is unfolded into
`pointToOffset`); a `Point` is handled by `pointToOffset`. -/
def placeToOffset (place : Option UnistPlace) (doc : List String) : Option (Int × Int) :=
  match place with
  | none => some (0, 0)
  | some (.position st fi) => do
    let a ← pointToOffset st doc
    let b ← pointToOffset fi doc
    pure (a.1, b.2)
  | some (.point p) => pointToOffset p doc

/-- C9.  For every place whose `line` or `column` is null, and for an absent
place, `placeToOffset` returns the degenerate zero-length range `{from: 0,
to: 0}` and never throws; for every point place with non-null 1-indexed
`line` within the document and non-null `column`, it returns the offset
`line.from + column - 1` for both `from` and `to`. -/
theorem placeToOffset_degenerate_and_point (doc : List String) :
    placeToOffset none doc = some (0, 0) ∧
    (∀ p : UnistPoint, p.line = none ∨ p.column = none →
      placeToOffset (some (.point p)) doc = some (0, 0)) ∧
    (∀ l c : Int, 1 ≤ l → l ≤ doc.length →
      placeToOffset (some (.point ⟨some l, some c⟩)) doc
        = some ((lineStart doc l.toNat : Int) + c - 1,
                (lineStart doc l.toNat : Int) + c - 1)) := by
  refine ⟨rfl, ?_, ?_⟩
  · rintro ⟨pl, pc⟩ (h | h) <;> simp only at h <;> subst h
    · rcases pc with _ | c <;> rfl
    · rfl
  · intro l c hl1 hl2
    have hcond : 1 ≤ l ∧ l ≤ (doc.length : Int) := ⟨hl1, hl2⟩
    simp only [placeToOffset, pointToOffset, lineObjInt, if_pos hcond]

/-- Witness for C9 at a concrete input: line 2, column 1 of the two-line
document `["ab", "c"]` translates to offset 3 (line 2 starts at offset 3). -/
theorem placeToOffset_degenerate_and_point_witness :
    placeToOffset (some (.point ⟨some 2, some 1⟩)) ["ab", "c"]
      = some ((lineStart ["ab", "c"] (2 : Int).toNat : Int) + 1 - 1,
              (lineStart ["ab", "c"] (2 : Int).toNat : Int) + 1 - 1) :=
  (placeToOffset_degenerate_and_point ["ab", "c"]).2.2 2 1 (by decide) (by decide)

/-! ## Block expansion (`getSurroundingLinePosition`, md-lint.ts)

The document is again a list of lines.  `line.text.trim() === ''` holds
exactly when every character of the line is whitespace.  The two `while`
loops of the source walk a 1-indexed line number down to 1 (resp. up to
`totalLines`); they are rendered as structural recursions on the line number
(resp. on the distance to the last line), which encodes precisely the loop
guards `fromLine > 1` and `toLine < totalLines`. -/

/-- Whether the 1-indexed line `n` is blank (`line(n).text.trim() === ''`). -/
def blankLine (d : List String) (n : Nat) : Bool :=
  (d.getD (n - 1) "").toList.all Char.isWhitespace

/-- Total document length in characters (lines joined by single newlines),
`doc.length` of the editor's `Text`. -/
def docLength (d : List String) : Nat :=
  (d.map (fun s => s.length + 1)).sum - 1

/-- Helper for `lineAtNumber`: walk the lines, keeping the 1-indexed number
of the current line; an offset at most `line.to` belongs to that line.
Offsets beyond the last line clamp to it (the editor throws there; all uses
in the theorems stay in range). -/
def lineAtAux : List String → Nat → Nat → Nat
  | [], _, n => n
  | [_], _, n => n
  | s :: t :: rest, off, n =>
    if off ≤ s.length then n else lineAtAux (t :: rest) (off - (s.length + 1)) (n + 1)

/-- `doc.lineAt(off).number`: the 1-indexed number of the line containing
offset `off`. -/
def lineAtNumber (d : List String) (off : Nat) : Nat :=
  lineAtAux d off 1

/-- The first `while` loop of `getSurroundingLinePosition`: walk `fromLine`
down while `fromLine > 1`, examining `line(fromLine - 1)`.  A blank line
clears `currentBlock` and breaks once `prevBlock` is set; a non-blank line
seen outside the starting block sets `prevBlock`.  The argument `fl + 2`
covers the guard `fromLine > 1`; the remaining cases return `fromLine`
unchanged. -/
def upLoop (d : List String) : Nat → Bool → Bool → Nat
  | fl + 2, currentBlock, prevBlock =>
    if blankLine d (fl + 1) then
      if prevBlock then fl + 2 else upLoop d (fl + 1) false prevBlock
    else if currentBlock = false then upLoop d (fl + 1) currentBlock true
    else upLoop d (fl + 1) currentBlock prevBlock
  | fl, _, _ => fl

/-- The second `while` loop of `getSurroundingLinePosition`: walk `toLine`
up while `toLine < totalLines`, examining `line(toLine + 1)`.  The fuel
argument is `totalLines - toLine`, so fuel `0` is exactly the exit condition
`toLine >= totalLines`. -/
def downLoopAux (d : List String) : Nat → Nat → Bool → Bool → Nat
  | 0, tl, _, _ => tl
  | fuel + 1, tl, currentBlock, nextBlock =>
    if blankLine d (tl + 1) then
      if nextBlock then tl else downLoopAux d fuel (tl + 1) false nextBlock
    else if currentBlock = false then downLoopAux d fuel (tl + 1) currentBlock true
    else downLoopAux d fuel (tl + 1) currentBlock nextBlock

def downLoop (d : List String) (total tl : Nat) (currentBlock nextBlock : Bool) : Nat :=
  downLoopAux d (total - tl) tl currentBlock nextBlock

/-- `getSurroundingLinePosition` (md-lint.ts): clamp
`lineAt(from).number - context` to 1 and `lineAt(to).number + context` to
`totalLines`, run the two block-walking loops, and return the offsets of the
resulting whole-line run. -/
def getSurroundingLinePosition (d : List String) (fromOff toOff : Nat)
    (context : Nat) : MRange :=
  let totalLines := d.length
  let fromLine := max 1 (lineAtNumber d fromOff - context)
  let toLine := min totalLines (lineAtNumber d toOff + context)
  let fl := upLoop d fromLine true false
  let tl := downLoop d totalLines toLine true false
  ⟨lineStart d fl, lineEnd d tl⟩

/-- Bounded upward linear search: the least `j` with `i <= j <= total` and
`P j`, or the sentinel `0` when there is none (line numbers are positive, so
`0` is never a hit).  Fuel counts the candidates `i..total`. -/
def findLeastAux (P : Nat → Bool) : Nat → Nat → Nat
  | 0, _ => 0
  | fuel + 1, i => if P i then i else findLeastAux P fuel (i + 1)

def findLeast (P : Nat → Bool) (i total : Nat) : Nat :=
  findLeastAux P (total + 1 - i) i

/-- Start line of the maximal non-blank run containing line `l` (line `l`
itself assumed non-blank): one past the nearest blank line below. -/
def blockStartAt (d : List String) (l : Nat) : Nat :=
  Nat.findGreatest (fun i => 0 < i ∧ blankLine d i) (l - 1) + 1

/-- End line of the maximal non-blank run containing line `l`: one before
the nearest blank line above, or the last line. -/
def blockEndAt (d : List String) (l : Nat) : Nat :=
  let p := findLeast (blankLine d) (l + 1) d.length
  if p = 0 then d.length else p - 1

/-- Line `s` starts a block (maximal run of non-blank lines). -/
def isBlockStart (d : List String) (s : Nat) : Bool :=
  decide (1 ≤ s) && decide (s ≤ d.length) && ! blankLine d s &&
    (decide (s = 1) || blankLine d (s - 1))

/-- Number of whole blocks contained in the line interval `[a, b]`. -/
def blocksWithin (d : List String) (a b : Nat) : Nat :=
  ((List.range' a (b + 1 - a)).filter
    (fun s => isBlockStart d s && decide (blockEndAt d s ≤ b))).length

/-- The validity predicate of claim C6's expansion, following the claim's
words (not the source): the whole-line run `[l1, l2]` contains the changed
range, and on each side at least `context` additional whole blocks lie
between the run's edge and the starting block — or the run is clipped at the
buffer boundary.  The claimed expansion is the smallest such run. -/
def claimValidLines (d : List String) (fromOff toOff context l1 l2 : Nat) : Bool :=
  let lf := lineAtNumber d fromOff
  let lt := lineAtNumber d toOff
  decide (1 ≤ l1) && decide (l1 ≤ lf) && decide (lt ≤ l2) && decide (l2 ≤ d.length) &&
  (decide (context ≤ blocksWithin d l1 (blockStartAt d lf - 1)) || decide (l1 = 1)) &&
  (decide (context ≤ blocksWithin d (blockEndAt d lt + 1) l2) || decide (l2 = d.length))

/-- C6, counterexample.  For the buffer `"a\n\nb"` and the changed range
`[3,4]` (the line `"b"`) with `context = 0`, the claim prescribes the
smallest whole-line run containing the range with at least 0 additional
blocks per side — which is line 3 alone, i.e. offsets `[3,4]`: line 3 is a
valid run, and every valid run contains line 3.  The code instead returns
offsets `[0,4]`: it always walks across one entire additional block
(here the block `"a"`), so its result is not the claimed smallest run. -/
theorem getSurroundingLinePosition_claim_false :
    claimValidLines ["a", "", "b"] 3 4 0 3 3 = true ∧
    (∀ l1 l2, claimValidLines ["a", "", "b"] 3 4 0 l1 l2 = true → l1 ≤ 3 ∧ 3 ≤ l2) ∧
    getSurroundingLinePosition ["a", "", "b"] 3 4 0 = ⟨0, 4⟩ ∧
    (⟨0, 4⟩ : MRange) ≠ ⟨lineStart ["a", "", "b"] 3, lineEnd ["a", "", "b"] 3⟩ := by
  refine ⟨by decide, ?_, by decide, by decide⟩
  intro l1 l2 h
  simp only [claimValidLines, Bool.and_eq_true, decide_eq_true_eq] at h
  have h2 : l1 ≤ lineAtNumber ["a", "", "b"] 3 := h.1.1.1.1.2
  have h3 : lineAtNumber ["a", "", "b"] 4 ≤ l2 := h.1.1.1.2
  have e1 : lineAtNumber ["a", "", "b"] 3 = 3 := by decide
  have e2 : lineAtNumber ["a", "", "b"] 4 = 3 := by decide
  rw [e1] at h2
  rw [e2] at h3
  exact ⟨h2, h3⟩

/-- C7, counterexample.  Block expansion is not idempotent: on the buffer
`"a\n\nb\n\nc"` with `context = 0`, expanding the range `[6,7]` (line
`"c"`) yields `[3,7]` (lines 3–5), but expanding `[3,7]` again with the same
context yields `[0,7]` — each application walks one further block upward, so
re-expanding an already-expanded range does not return the same range. -/
theorem getSurroundingLinePosition_not_idempotent :
    getSurroundingLinePosition ["a", "", "b", "", "c"] 6 7 0 = ⟨3, 7⟩ ∧
    getSurroundingLinePosition ["a", "", "b", "", "c"] 3 7 0 = ⟨0, 7⟩ ∧
    ((⟨0, 7⟩ : MRange) ≠ ⟨3, 7⟩) := by
  refine ⟨by decide, by decide, by decide⟩

/-! ### Characterization of the block-expansion loops

The upward loop, started at line `l` in its initial state, lands on the start
line of the first complete block above the nearest blank line above `l` —
i.e. it crosses into, then out of, exactly **one** additional block — or on
line 1 when it runs out of buffer.  `upSpec`/`downSpec` state this
declaratively; the phase lemmas below prove each loop equal to them. -/

/-- Declarative description of the upward walk from start line `l`: find the
nearest blank line `b` below `l`; below it the nearest non-blank line `q`;
the result is the start line of the block containing `q` (one past the next
blank below `q`).  Running off the buffer start at any stage yields 1. -/
def upSpec (d : List String) (l : Nat) : Nat :=
  let b := Nat.findGreatest (fun i => 0 < i ∧ blankLine d i) (l - 1)
  if b = 0 then 1
  else
    let q := Nat.findGreatest (fun i => 0 < i ∧ ¬ blankLine d i) (b - 1)
    if q = 0 then 1
    else Nat.findGreatest (fun i => 0 < i ∧ blankLine d i) (q - 1) + 1

/-- Declarative description of the downward walk from start line `l` with
`total` lines: nearest blank line `b` above `l`, nearest non-blank `q` above
that, result is the end line of the block containing `q` (one before the next
blank above `q`); running off the buffer end at any stage yields `total`. -/
def downSpec (d : List String) (total l : Nat) : Nat :=
  let b := findLeast (blankLine d) (l + 1) total
  if b = 0 then total
  else
    let q := findLeast (fun i => ! blankLine d i) (b + 1) total
    if q = 0 then total
    else
      let p := findLeast (blankLine d) (q + 1) total
      if p = 0 then total else p - 1

lemma findGreatest_succ_ex (P : Nat → Prop) [DecidablePred P] (n : Nat) :
    Nat.findGreatest P (n + 1) = if P (n + 1) then n + 1 else Nat.findGreatest P n :=
  rfl

lemma findLeast_step (P : Nat → Bool) (i total : Nat) :
    findLeast P i total =
      if i ≤ total then (if P i then i else findLeast P (i + 1) total) else 0 := by
  unfold findLeast
  rcases le_or_lt i total with h | h
  · have h1 : total + 1 - i = (total - i) + 1 := by omega
    have h2 : total - i = total + 1 - (i + 1) := by omega
    rw [h1, if_pos h]
    simp only [findLeastAux]
    rw [h2]
  · have h1 : total + 1 - i = 0 := by omega
    rw [h1, if_neg (Nat.not_le_of_lt h)]
    rfl

lemma upLoop_phase3 (d : List String) :
    ∀ n, upLoop d (n + 1) false true
      = Nat.findGreatest (fun i => 0 < i ∧ blankLine d i) n + 1 := by
  intro n
  induction n with
  | zero => rfl
  | succ n ih =>
    rw [show n + 1 + 1 = n + 2 from rfl, upLoop,
      findGreatest_succ_ex (fun i => 0 < i ∧ blankLine d i) n]
    by_cases hb : blankLine d (n + 1)
    · rw [if_pos hb, if_pos rfl, if_pos ⟨Nat.succ_pos n, hb⟩]
    · rw [if_neg hb, if_pos rfl, ih, if_neg (by simp [hb])]

lemma upLoop_phase2 (d : List String) :
    ∀ n, upLoop d (n + 1) false false
      = (if Nat.findGreatest (fun i => 0 < i ∧ ¬ blankLine d i) n = 0 then 1
         else Nat.findGreatest (fun i => 0 < i ∧ blankLine d i)
                (Nat.findGreatest (fun i => 0 < i ∧ ¬ blankLine d i) n - 1) + 1) := by
  intro n
  induction n with
  | zero => rfl
  | succ n ih =>
    have hQsucc := findGreatest_succ_ex (fun i => 0 < i ∧ ¬ blankLine d i) n
    rw [show n + 1 + 1 = n + 2 from rfl, upLoop]
    by_cases hb : blankLine d (n + 1)
    · have hq : Nat.findGreatest (fun i => 0 < i ∧ ¬ blankLine d i) (n + 1)
          = Nat.findGreatest (fun i => 0 < i ∧ ¬ blankLine d i) n := by
        rw [hQsucc, if_neg]
        simp [hb]
      rw [if_pos hb, if_neg (by decide), ih, hq]
    · have hq : Nat.findGreatest (fun i => 0 < i ∧ ¬ blankLine d i) (n + 1) = n + 1 := by
        rw [hQsucc, if_pos ⟨Nat.succ_pos n, hb⟩]
      rw [if_neg hb, if_pos rfl, upLoop_phase3, hq,
        if_neg (Nat.succ_ne_zero n), Nat.add_sub_cancel]

lemma upLoop_phase1 (d : List String) :
    ∀ n, upLoop d (n + 1) true false = upSpec d (n + 1) := by
  intro n
  induction n with
  | zero => rfl
  | succ n ih =>
    have hPsucc := findGreatest_succ_ex (fun i => 0 < i ∧ blankLine d i) n
    rw [show n + 1 + 1 = n + 2 from rfl, upLoop]
    by_cases hb : blankLine d (n + 1)
    · have hp : Nat.findGreatest (fun i => 0 < i ∧ blankLine d i) (n + 1) = n + 1 := by
        rw [hPsucc, if_pos ⟨Nat.succ_pos n, hb⟩]
      rw [if_pos hb, if_neg (by decide), upLoop_phase2]
      simp only [upSpec]
      rw [show n + 2 - 1 = n + 1 from rfl, hp,
        if_neg (Nat.succ_ne_zero n), Nat.add_sub_cancel]
    · have hp : Nat.findGreatest (fun i => 0 < i ∧ blankLine d i) (n + 1)
          = Nat.findGreatest (fun i => 0 < i ∧ blankLine d i) n := by
        rw [hPsucc, if_neg]
        simp [hb]
      rw [if_neg hb, if_neg (by decide), ih]
      simp only [upSpec]
      rw [show n + 2 - 1 = n + 1 from rfl, show n + 1 - 1 = n from rfl, hp]

lemma downLoopAux_phase3 (d : List String) (total : Nat) :
    ∀ fuel tl, total = tl + fuel →
      downLoopAux d fuel tl false true
        = (if findLeast (blankLine d) (tl + 1) total = 0 then total
           else findLeast (blankLine d) (tl + 1) total - 1) := by
  intro fuel
  induction fuel with
  | zero =>
    intro tl htot
    have h0 : findLeast (blankLine d) (tl + 1) total = 0 := by
      rw [findLeast_step, if_neg (by omega)]
    rw [h0, if_pos rfl]
    simp only [downLoopAux]
    omega
  | succ fuel ih =>
    intro tl htot
    have hle : tl + 1 ≤ total := by omega
    by_cases hb : blankLine d (tl + 1)
    · have hfl : findLeast (blankLine d) (tl + 1) total = tl + 1 := by
        rw [findLeast_step, if_pos hle, if_pos hb]
      rw [hfl, if_neg (Nat.succ_ne_zero tl), Nat.add_sub_cancel]
      simp [downLoopAux, hb]
    · have hfl : findLeast (blankLine d) (tl + 1) total
          = findLeast (blankLine d) (tl + 1 + 1) total := by
        rw [findLeast_step, if_pos hle, if_neg hb]
      rw [hfl, ← ih (tl + 1) (by omega)]
      simp [downLoopAux, hb]

lemma downLoopAux_phase2 (d : List String) (total : Nat) :
    ∀ fuel tl, total = tl + fuel →
      downLoopAux d fuel tl false false
        = (if findLeast (fun i => ! blankLine d i) (tl + 1) total = 0 then total
           else
             if findLeast (blankLine d)
                  (findLeast (fun i => ! blankLine d i) (tl + 1) total + 1) total = 0
             then total
             else findLeast (blankLine d)
                  (findLeast (fun i => ! blankLine d i) (tl + 1) total + 1) total - 1) := by
  intro fuel
  induction fuel with
  | zero =>
    intro tl htot
    have h0 : findLeast (fun i => ! blankLine d i) (tl + 1) total = 0 := by
      rw [findLeast_step, if_neg (by omega)]
    rw [h0, if_pos rfl]
    simp only [downLoopAux]
    omega
  | succ fuel ih =>
    intro tl htot
    have hle : tl + 1 ≤ total := by omega
    by_cases hb : blankLine d (tl + 1)
    · have hfl : findLeast (fun i => ! blankLine d i) (tl + 1) total
          = findLeast (fun i => ! blankLine d i) (tl + 1 + 1) total := by
        rw [findLeast_step, if_pos hle, if_neg (by simp [hb])]
      rw [hfl, ← ih (tl + 1) (by omega)]
      simp [downLoopAux, hb]
    · have hfl : findLeast (fun i => ! blankLine d i) (tl + 1) total = tl + 1 := by
        rw [findLeast_step, if_pos hle, if_pos (by simp [hb])]
      rw [hfl, if_neg (Nat.succ_ne_zero tl),
        ← downLoopAux_phase3 d total fuel (tl + 1) (by omega)]
      simp [downLoopAux, hb]

lemma downLoopAux_phase1 (d : List String) (total : Nat) :
    ∀ fuel tl, total = tl + fuel →
      downLoopAux d fuel tl true false = downSpec d total tl := by
  intro fuel
  induction fuel with
  | zero =>
    intro tl htot
    have h0 : findLeast (blankLine d) (tl + 1) total = 0 := by
      rw [findLeast_step, if_neg (by omega)]
    simp only [downSpec]
    rw [h0, if_pos rfl]
    simp only [downLoopAux]
    omega
  | succ fuel ih =>
    intro tl htot
    have hle : tl + 1 ≤ total := by omega
    by_cases hb : blankLine d (tl + 1)
    · have hfl : findLeast (blankLine d) (tl + 1) total = tl + 1 := by
        rw [findLeast_step, if_pos hle, if_pos hb]
      simp only [downSpec]
      rw [hfl, if_neg (Nat.succ_ne_zero tl),
        ← downLoopAux_phase2 d total fuel (tl + 1) (by omega)]
      simp [downLoopAux, hb]
    · have hfl : findLeast (blankLine d) (tl + 1) total
          = findLeast (blankLine d) (tl + 1 + 1) total := by
        rw [findLeast_step, if_pos hle, if_neg hb]
      have hspec : downSpec d total tl = downSpec d total (tl + 1) := by
        simp only [downSpec]
        rw [hfl]
      rw [hspec, ← ih (tl + 1) (by omega)]
      simp [downLoopAux, hb]

/-- C6, amended.  `getSurroundingLinePosition` first widens the changed
range by `context` whole **lines** on each side (clamped to the buffer), and
then extends each side across exactly **one** additional non-blank-separated
block when one exists — to the start line of the first complete block above
the nearest blank line above, and symmetrically below — stopping at the
buffer boundary otherwise.  (It does not include `context` additional blocks
per side, as the original claim stated.) -/
theorem getSurroundingLinePosition_eq_oneBlockSpec
    (d : List String) (fromOff toOff context : Nat) :
    getSurroundingLinePosition d fromOff toOff context =
      ⟨lineStart d (upSpec d (max 1 (lineAtNumber d fromOff - context))),
       lineEnd d (downSpec d d.length
         (min d.length (lineAtNumber d toOff + context)))⟩ := by
  simp only [getSurroundingLinePosition, downLoop]
  obtain ⟨n, hn⟩ : ∃ n, max 1 (lineAtNumber d fromOff - context) = n + 1 :=
    ⟨max 1 (lineAtNumber d fromOff - context) - 1, by omega⟩
  have htl : min d.length (lineAtNumber d toOff + context) ≤ d.length :=
    Nat.min_le_left _ _
  rw [hn, upLoop_phase1, ← hn,
    downLoopAux_phase1 d d.length
      (d.length - min d.length (lineAtNumber d toOff + context))
      (min d.length (lineAtNumber d toOff + context)) (by omega)]

/-! ### Extensivity and the full-buffer fixed point of the block expansion -/

lemma upLoop_le (d : List String) : ∀ n c p, upLoop d n c p ≤ n := by
  intro n
  induction n using Nat.strong_induction_on with
  | _ n ih =>
    intro c p
    match n with
    | 0 => exact Nat.le_refl 0
    | 1 => exact Nat.le_refl 1
    | m + 2 =>
      rw [upLoop]
      by_cases hb : blankLine d (m + 1)
      · rw [if_pos hb]
        cases p with
        | false =>
          rw [if_neg (by decide)]
          exact Nat.le_trans (ih (m + 1) (by omega) false false) (by omega)
        | true =>
          rw [if_pos rfl]
      · rw [if_neg hb]
        cases c with
        | false =>
          rw [if_pos rfl]
          exact Nat.le_trans (ih (m + 1) (by omega) false true) (by omega)
        | true =>
          rw [if_neg (by decide)]
          exact Nat.le_trans (ih (m + 1) (by omega) true p) (by omega)

lemma downLoopAux_bounds (d : List String) :
    ∀ fuel tl c p, tl ≤ downLoopAux d fuel tl c p ∧ downLoopAux d fuel tl c p ≤ tl + fuel := by
  intro fuel
  induction fuel with
  | zero => intro tl c p; exact ⟨Nat.le_refl tl, Nat.le_refl tl⟩
  | succ fuel ih =>
    intro tl c p
    simp only [downLoopAux]
    by_cases hb : blankLine d (tl + 1)
    · rw [if_pos hb]
      cases p with
      | false =>
        rw [if_neg (by decide)]
        obtain ⟨h1, h2⟩ := ih (tl + 1) false false
        exact ⟨by omega, by omega⟩
      | true =>
        rw [if_pos rfl]
        exact ⟨Nat.le_refl tl, by omega⟩
    · rw [if_neg hb]
      cases c with
      | false =>
        rw [if_pos rfl]
        obtain ⟨h1, h2⟩ := ih (tl + 1) false true
        exact ⟨by omega, by omega⟩
      | true =>
        rw [if_neg (by decide)]
        obtain ⟨h1, h2⟩ := ih (tl + 1) true p
        exact ⟨by omega, by omega⟩

lemma lineAtAux_ge : ∀ (d : List String) (off n : Nat), n ≤ lineAtAux d off n := by
  intro d
  induction d with
  | nil => intro off n; exact Nat.le_refl n
  | cons s rest ih =>
    intro off n
    match rest with
    | [] => exact Nat.le_refl n
    | t :: r =>
      simp only [lineAtAux]
      by_cases h : off ≤ s.length
      · rw [if_pos h]
      · rw [if_neg h]
        exact Nat.le_trans (by omega) (ih (off - (s.length + 1)) (n + 1))

lemma lineAtAux_shift : ∀ (d : List String) (off n : Nat),
    lineAtAux d off (n + 1) = lineAtAux d off n + 1 := by
  intro d
  induction d with
  | nil => intro off n; rfl
  | cons s rest ih =>
    intro off n
    match rest with
    | [] => rfl
    | t :: r =>
      simp only [lineAtAux]
      by_cases h : off ≤ s.length
      · rw [if_pos h, if_pos h]
      · rw [if_neg h, if_neg h]
        exact ih (off - (s.length + 1)) (n + 1)

lemma lineAtAux_le_length : ∀ (d : List String) (off n : Nat), d ≠ [] →
    lineAtAux d off n ≤ n + d.length - 1 := by
  intro d
  induction d with
  | nil => intro off n h; exact absurd rfl h
  | cons s rest ih =>
    intro off n _
    match rest with
    | [] => simp [lineAtAux]
    | t :: r =>
      simp only [lineAtAux]
      by_cases h : off ≤ s.length
      · rw [if_pos h]
        simp only [List.length_cons]
        omega
      · rw [if_neg h]
        have := ih (off - (s.length + 1)) (n + 1) (by simp)
        simp only [List.length_cons] at this ⊢
        omega

lemma lineAtNumber_ge_one (d : List String) (off : Nat) : 1 ≤ lineAtNumber d off :=
  lineAtAux_ge d off 1

lemma lineAtNumber_le_length (d : List String) (off : Nat) (hd : d ≠ []) :
    lineAtNumber d off ≤ d.length := by
  have := lineAtAux_le_length d off 1 hd
  have hlen : 1 ≤ d.length := by
    cases d with
    | nil => exact absurd rfl hd
    | cons a l => simp
  simp only [lineAtNumber]
  omega

lemma lineStart_cons_succ (s : String) (rest : List String) (m : Nat) (hm : 1 ≤ m) :
    lineStart (s :: rest) (m + 1) = (s.length + 1) + lineStart rest m := by
  obtain ⟨k, rfl⟩ : ∃ k, m = k + 1 := ⟨m - 1, by omega⟩
  simp only [lineStart, Nat.add_sub_cancel, List.take_succ_cons, List.map_cons, List.sum_cons]

lemma lineEnd_cons_succ (s : String) (rest : List String) (m : Nat) (hm : 1 ≤ m) :
    lineEnd (s :: rest) (m + 1) = (s.length + 1) + lineEnd rest m := by
  obtain ⟨k, rfl⟩ : ∃ k, m = k + 1 := ⟨m - 1, by omega⟩
  simp only [lineEnd, lineStart_cons_succ s rest (k + 1) (by omega), Nat.add_sub_cancel]
  have : (s :: rest).getD (k + 1) "" = rest.getD k "" := rfl
  rw [this]
  omega

lemma lineStart_mono : ∀ (d : List String) (m n : Nat), m ≤ n →
    lineStart d m ≤ lineStart d n := by
  intro d
  induction d with
  | nil =>
    intro m n _
    simp [lineStart]
  | cons s rest ih =>
    intro m n hmn
    match m, n with
    | 0, n => simp [lineStart]
    | 1, n => simp [lineStart]
    | m + 2, n + 2 =>
      rw [lineStart_cons_succ s rest (m + 1) (by omega),
        lineStart_cons_succ s rest (n + 1) (by omega)]
      have := ih (m + 1) (n + 1) (by omega)
      omega

lemma lineEnd_mono : ∀ (d : List String) (m n : Nat), 1 ≤ m → m ≤ n → n ≤ d.length →
    lineEnd d m ≤ lineEnd d n := by
  intro d
  induction d with
  | nil => intro m n h1 h2 h3; simp at h3; omega
  | cons s rest ih =>
    intro m n h1 h2 h3
    match m, n with
    | 1, 1 => exact Nat.le_refl _
    | 1, n + 2 =>
      rw [lineEnd_cons_succ s rest (n + 1) (by omega)]
      have h4 : lineEnd (s :: rest) 1 = s.length := by
        simp [lineEnd, lineStart]
      rw [h4]
      omega
    | m + 2, n + 2 =>
      rw [lineEnd_cons_succ s rest (m + 1) (by omega),
        lineEnd_cons_succ s rest (n + 1) (by omega)]
      have := ih (m + 1) (n + 1) (by omega) (by omega) (by simp at h3; omega)
      omega

lemma lineStart_lineAtNumber_le : ∀ (d : List String) (off : Nat),
    lineStart d (lineAtNumber d off) ≤ off := by
  intro d
  induction d with
  | nil => intro off; simp [lineAtNumber, lineAtAux, lineStart]
  | cons s rest ih =>
    intro off
    match rest with
    | [] => simp [lineAtNumber, lineAtAux, lineStart]
    | t :: r =>
      simp only [lineAtNumber, lineAtAux]
      by_cases h : off ≤ s.length
      · rw [if_pos h]
        simp [lineStart]
      · rw [if_neg h]
        have hshift := lineAtAux_shift (t :: r) (off - (s.length + 1)) 1
        rw [hshift]
        have hge := lineAtAux_ge (t :: r) (off - (s.length + 1)) 1
        rw [lineStart_cons_succ s (t :: r) _ hge]
        have := ih (off - (s.length + 1))
        simp only [lineAtNumber] at this
        omega

lemma le_lineEnd_lineAtNumber : ∀ (d : List String) (off : Nat), d ≠ [] →
    off ≤ docLength d → off ≤ lineEnd d (lineAtNumber d off) := by
  intro d
  induction d with
  | nil => intro off h; exact absurd rfl h
  | cons s rest ih =>
    intro off _ hoff
    match rest with
    | [] =>
      have : docLength [s] = s.length := by simp [docLength]
      simp only [lineAtNumber, lineAtAux, lineEnd, lineStart]
      simp only [this] at hoff
      simpa using hoff
    | t :: r =>
      simp only [lineAtNumber, lineAtAux]
      by_cases h : off ≤ s.length
      · rw [if_pos h]
        have : lineEnd (s :: t :: r) 1 = s.length := by simp [lineEnd, lineStart]
        rw [this]
        exact h
      · rw [if_neg h]
        have hshift := lineAtAux_shift (t :: r) (off - (s.length + 1)) 1
        rw [hshift]
        have hge := lineAtAux_ge (t :: r) (off - (s.length + 1)) 1
        rw [lineEnd_cons_succ s (t :: r) _ hge]
        have hdoc : docLength (s :: t :: r) = (s.length + 1) + docLength (t :: r) := by
          have hpos : 1 ≤ ((t :: r).map (fun s => s.length + 1)).sum := by
            simp only [List.map_cons, List.sum_cons]
            omega
          simp only [docLength, List.map_cons, List.sum_cons]
          omega
        have := ih (off - (s.length + 1)) (by simp) (by omega)
        simp only [lineAtNumber] at this
        omega

lemma docLength_cons (s t : String) (r : List String) :
    docLength (s :: t :: r) = (s.length + 1) + docLength (t :: r) := by
  have hpos : 1 ≤ ((t :: r).map (fun s => s.length + 1)).sum := by
    simp only [List.map_cons, List.sum_cons]
    omega
  simp only [docLength, List.map_cons, List.sum_cons]
  omega

lemma lineAtNumber_zero (d : List String) : lineAtNumber d 0 = 1 := by
  match d with
  | [] => rfl
  | [s] => rfl
  | s :: t :: r =>
    simp only [lineAtNumber, lineAtAux]
    rw [if_pos (Nat.zero_le _)]

lemma lineAtNumber_docLength : ∀ d : List String, d ≠ [] →
    lineAtNumber d (docLength d) = d.length := by
  intro d
  induction d with
  | nil => intro h; exact absurd rfl h
  | cons s rest ih =>
    intro _
    match rest with
    | [] => rfl
    | t :: r =>
      rw [docLength_cons s t r]
      simp only [lineAtNumber, lineAtAux]
      rw [if_neg (by omega), lineAtAux_shift]
      have := ih (by simp)
      simp only [lineAtNumber] at this
      rw [show s.length + 1 + docLength (t :: r) - (s.length + 1) = docLength (t :: r)
          from by omega, this]
      simp

lemma lineEnd_length_docLength : ∀ d : List String, d ≠ [] →
    lineEnd d d.length = docLength d := by
  intro d
  induction d with
  | nil => intro h; exact absurd rfl h
  | cons s rest ih =>
    intro _
    match rest with
    | [] => simp [lineEnd, lineStart, docLength]
    | t :: r =>
      rw [docLength_cons s t r]
      have hlen : (s :: t :: r).length = (t :: r).length + 1 := rfl
      rw [hlen, lineEnd_cons_succ s (t :: r) (t :: r).length (by simp),
        ih (by simp)]

/-- C7, amended.  Block expansion is not idempotent in general (each
application may cross one further block; see the counterexample): what holds
instead is that the expansion is extensive — the result always contains the
input range — and the full buffer is a fixed point: expanding the range
`[0, docLength]` returns exactly `[0, docLength]` for every context, so
repeated expansion stabilizes only once the whole buffer is covered. -/
theorem getSurroundingLinePosition_extensive_fullBufferFixed :
    (∀ (d : List String) (fromOff toOff context : Nat), d ≠ [] →
      toOff ≤ docLength d →
      (getSurroundingLinePosition d fromOff toOff context).fromPos ≤ fromOff ∧
      toOff ≤ (getSurroundingLinePosition d fromOff toOff context).toPos) ∧
    (∀ (d : List String) (context : Nat), d ≠ [] →
      getSurroundingLinePosition d 0 (docLength d) context = ⟨0, docLength d⟩) := by
  constructor
  · intro d fromOff toOff context hd htoff
    simp only [getSurroundingLinePosition, downLoop]
    constructor
    · have hge1 := lineAtNumber_ge_one d fromOff
      have hmax : max 1 (lineAtNumber d fromOff - context) ≤ lineAtNumber d fromOff :=
        Nat.max_le.mpr ⟨hge1, Nat.sub_le _ _⟩
      have h1 : upLoop d (max 1 (lineAtNumber d fromOff - context)) true false
          ≤ lineAtNumber d fromOff :=
        Nat.le_trans (upLoop_le d _ true false) hmax
      exact Nat.le_trans (lineStart_mono d _ _ h1) (lineStart_lineAtNumber_le d fromOff)
    · have hm1 : 1 ≤ lineAtNumber d toOff := lineAtNumber_ge_one d toOff
      have hmlen : lineAtNumber d toOff ≤ d.length := lineAtNumber_le_length d toOff hd
      have hmtl : lineAtNumber d toOff ≤ min d.length (lineAtNumber d toOff + context) :=
        le_min hmlen (Nat.le_add_right _ _)
      have htl : min d.length (lineAtNumber d toOff + context) ≤ d.length :=
        Nat.min_le_left _ _
      obtain ⟨hge, hle⟩ := downLoopAux_bounds d
        (d.length - min d.length (lineAtNumber d toOff + context))
        (min d.length (lineAtNumber d toOff + context)) true false
      have h2 : toOff ≤ lineEnd d (lineAtNumber d toOff) :=
        le_lineEnd_lineAtNumber d toOff hd htoff
      have h3 : lineEnd d (lineAtNumber d toOff)
          ≤ lineEnd d (downLoopAux d
              (d.length - min d.length (lineAtNumber d toOff + context))
              (min d.length (lineAtNumber d toOff + context)) true false) :=
        lineEnd_mono d _ _ hm1 (Nat.le_trans hmtl hge) (by omega)
      exact Nat.le_trans h2 h3
  · intro d context hd
    simp only [getSurroundingLinePosition, downLoop]
    rw [lineAtNumber_zero d, lineAtNumber_docLength d hd,
      Nat.max_eq_left (by omega : 1 - context ≤ 1),
      Nat.min_eq_left (Nat.le_add_right d.length context), Nat.sub_self]
    show (⟨0, lineEnd d d.length⟩ : MRange) = ⟨0, docLength d⟩
    rw [lineEnd_length_docLength d hd]

/-- Witness for C7's amended theorem at concrete inputs: for the buffer
`"a\n\nb"`, expanding `[3,4]` contains `[3,4]`, and expanding the full
buffer `[0,4]` with context 5 returns `[0,4]`. -/
theorem getSurroundingLinePosition_extensive_fullBufferFixed_witness :
    ((getSurroundingLinePosition ["a", "", "b"] 3 4 0).fromPos ≤ 3 ∧
      4 ≤ (getSurroundingLinePosition ["a", "", "b"] 3 4 0).toPos) ∧
    getSurroundingLinePosition ["a", "", "b"] 0 (docLength ["a", "", "b"]) 5
      = ⟨0, docLength ["a", "", "b"]⟩ :=
  ⟨getSurroundingLinePosition_extensive_fullBufferFixed.1 ["a", "", "b"] 3 4 0
      (by decide) (by decide),
    getSurroundingLinePosition_extensive_fullBufferFixed.2 ["a", "", "b"] 5 (by decide)⟩

/-! ## Grammar-linter match validation (`ltLinter`, language-tool.ts)

A match returned by the grammar-check collaborator, with `offset`/`length`
relative to the submitted text.  The filter loop removes (by `splice`, here
rendered as a recursive keep/drop) every match for which no plain-text node
span contains `[fromOffset, toOffset]`, where the source computes
`fromOffset = match.offset` but `toOffset = from + match.length` — `from`
being the absolute start of the analyzed range in the buffer. -/

structure LTMatch where
  offset : Nat
  length : Nat
  message : String
  issueType : String
deriving DecidableEq, Repr

/-- The match-validation loop of `ltLinter` (language-tool.ts): keep a match
when some text node `node` satisfies `fromOffset >= node.from` and
`toOffset <= node.to` with `fromOffset = match.offset` and
`toOffset = from + match.length`; otherwise drop it silently. -/
def filterLTMatches (fromBase : Nat) (textNodes : List MRange) :
    List LTMatch → List LTMatch
  | [] => []
  | m :: rest =>
    if textNodes.any (fun node =>
        decide (m.offset ≥ node.fromPos) && decide (fromBase + m.length ≤ node.toPos)) then
      m :: filterLTMatches fromBase textNodes rest
    else
      filterLTMatches fromBase textNodes rest

/-- C4.  The claim says a match is accepted iff its span
`[offset, offset + length]` (relative to the submitted text) lies inside
some plain-text node span.  The code instead tests
`offset >= node.from && from + length <= node.to`, mixing the absolute
range base `from` into the text-relative comparison.  At range base
`from = 10` with one text node `[0,5]`, the match `offset 0, length 3`
(span `[0,3] ⊆ [0,5]`, which the claim accepts) is dropped; at base
`from = 0` the match `offset 2, length 4` (span `[2,6] ⊄ [0,5]`, which the
claim rejects) is accepted. -/
theorem ltLinter_match_filter_mixed_coordinates :
    ((0 : Nat) ≥ 0 ∧ 0 + 3 ≤ (5 : Nat)) ∧
    filterLTMatches 10 [⟨0, 5⟩] [⟨0, 3, "msg", "style"⟩] = [] ∧
    ¬ ((2 : Nat) + 4 ≤ 5) ∧
    filterLTMatches 0 [⟨0, 5⟩] [⟨2, 4, "msg", "style"⟩] = [⟨2, 4, "msg", "style"⟩] := by
  decide

/-! ## Diagnostic reconciliation (`mdLint`, md-lint.ts; `ltLinter`,
language-tool.ts)

Both lint passes walk the previously reported diagnostics
(`forEachDiagnostic` supplies the stored diagnostic `d` together with its
remapped positions `from`/`to`), keep those of their own provider whose
stored span does not overlap the accumulated `ranges`, and push the remapped
span of every overlapping one onto `ranges` — mutating `ranges` while the
walk is still in progress.  The two files differ only in the provider tag
(`'remark-lint'` vs `'language-tool'`). -/

structure Diagnostic where
  fromPos : Nat
  toPos : Nat
  severity : String
  message : String
  source : Option String
deriving DecidableEq, Repr

/-- `needle` occurs as a contiguous substring of `hay`
(JavaScript `String.prototype.includes`). -/
def containsSubstr (needle : List Char) : List Char → Bool
  | [] => needle.isEmpty
  | c :: rest => needle.isPrefixOf (c :: rest) || containsSubstr needle rest

/-- `d.source !== undefined && d.source?.includes(tag)`. -/
def sourceMatches (tag : String) (d : Diagnostic) : Bool :=
  match d.source with
  | some s => containsSubstr tag.toList s.toList
  | none => false

/-- `ranges.some(r => !(d.to < r.from || d.from > r.to))` (md-lint.ts). -/
def overlapsRanges (d : Diagnostic) (ranges : List MRange) : Bool :=
  ranges.any (fun r => ! (decide (d.toPos < r.fromPos) || decide (d.fromPos > r.toPos)))

/-- The `forEachDiagnostic` reconciliation loop of `mdLint`/`ltLinter`:
`diags` and `ranges` accumulate the carried-over diagnostics and the ranges
to re-analyze.  A provider diagnostic disjoint from the current `ranges` is
pushed with its positions replaced by the remapped `f`/`t` (`{...d, from,
to}`); an overlapping one is dropped and `{from: f, to: t}` is pushed onto
`ranges`, which the overlap tests of later diagnostics then see. -/
def reconcileDiagnostics (tag : String) :
    List (Diagnostic × Nat × Nat) → List Diagnostic → List MRange
      → List Diagnostic × List MRange
  | [], diags, ranges => (diags, ranges)
  | (d, f, t) :: rest, diags, ranges =>
    if sourceMatches tag d then
      if overlapsRanges d ranges = false then
        reconcileDiagnostics tag rest
          (diags ++ [{ d with fromPos := f, toPos := t }]) ranges
      else
        reconcileDiagnostics tag rest diags (ranges ++ [⟨f, t⟩])
    else
      reconcileDiagnostics tag rest diags ranges

def diagSample1 : Diagnostic := ⟨5, 20, "warning", "m1", some "remark-lint (x)"⟩

def diagSample2 : Diagnostic := ⟨15, 18, "warning", "m2", some "remark-lint (y)"⟩

/-- C5, counterexample.  With one changed (block-expanded) range `[0,10]`
and previously reported provider diagnostics `d1` at `[5,20]` and `d2` at
`[15,18]`: `d2` is disjoint from every changed range, so the claim requires
it to be carried over — but the pass first removes `d1` (which overlaps
`[0,10]`), pushes `d1`'s span `[5,20]` onto the range list, and then removes
`d2` because it overlaps that pushed span.  The carried-over list is empty. -/
theorem mdLint_reconciliation_claim_false :
    overlapsRanges diagSample2 [⟨0, 10⟩] = false ∧
    (reconcileDiagnostics "remark-lint"
      [(diagSample1, 5, 20), (diagSample2, 15, 18)] [] [⟨0, 10⟩]).1 = [] ∧
    (reconcileDiagnostics "remark-lint"
      [(diagSample1, 5, 20), (diagSample2, 15, 18)] [] [⟨0, 10⟩]).2
      = [⟨0, 10⟩, ⟨5, 20⟩, ⟨15, 18⟩] := by
  decide

lemma reconcileDiagnostics_append (tag : String)
    (l1 l2 : List (Diagnostic × Nat × Nat)) (diags : List Diagnostic)
    (ranges : List MRange) :
    reconcileDiagnostics tag (l1 ++ l2) diags ranges
      = reconcileDiagnostics tag l2
          (reconcileDiagnostics tag l1 diags ranges).1
          (reconcileDiagnostics tag l1 diags ranges).2 := by
  induction l1 generalizing diags ranges with
  | nil => rfl
  | cons p rest ih =>
    obtain ⟨d, f, t⟩ := p
    by_cases hs : sourceMatches tag d
    · by_cases ho : overlapsRanges d ranges = false
      · simp only [List.cons_append, reconcileDiagnostics, if_pos hs, if_pos ho]
        exact ih _ _
      · simp only [List.cons_append, reconcileDiagnostics, if_pos hs, if_neg ho]
        exact ih _ _
    · simp only [List.cons_append, reconcileDiagnostics, if_neg hs]
      exact ih _ _

/-- C5, amended.  At each step of a lint pass, a previously reported
diagnostic of the pass's provider is carried over — with its message,
severity, source and every other content field unchanged, only its
`from`/`to` replaced by the remapped positions — exactly when its stored
span is disjoint from the **accumulated** range set at its processing point:
the changed block-expanded ranges plus the remapped spans of the provider
diagnostics already removed earlier in the same walk.  Otherwise it
contributes nothing to the carried-over list and its remapped span is
appended to the ranges to re-analyze.  (The original claim — disjointness
from the changed ranges alone suffices to survive — fails; see the
counterexample.) -/
theorem reconcileDiagnostics_step_characterization (tag : String)
    (pre post : List (Diagnostic × Nat × Nat)) (d : Diagnostic) (f t : Nat)
    (diags0 : List Diagnostic) (ranges0 : List MRange) :
    (sourceMatches tag d = true →
      overlapsRanges d (reconcileDiagnostics tag pre diags0 ranges0).2 = false →
      reconcileDiagnostics tag (pre ++ (d, f, t) :: post) diags0 ranges0
        = reconcileDiagnostics tag post
            ((reconcileDiagnostics tag pre diags0 ranges0).1
              ++ [{ d with fromPos := f, toPos := t }])
            (reconcileDiagnostics tag pre diags0 ranges0).2) ∧
    (sourceMatches tag d = true →
      overlapsRanges d (reconcileDiagnostics tag pre diags0 ranges0).2 = true →
      reconcileDiagnostics tag (pre ++ (d, f, t) :: post) diags0 ranges0
        = reconcileDiagnostics tag post
            (reconcileDiagnostics tag pre diags0 ranges0).1
            ((reconcileDiagnostics tag pre diags0 ranges0).2 ++ [⟨f, t⟩])) := by
  constructor
  · intro hs ho
    rw [reconcileDiagnostics_append]
    simp only [reconcileDiagnostics]
    rw [if_pos hs, if_pos ho]
  · intro hs ho
    rw [reconcileDiagnostics_append]
    simp only [reconcileDiagnostics]
    rw [if_pos hs, if_neg (by simp [ho])]

/-- Witness for C5's amended theorem at a concrete input: with no earlier
diagnostics processed, the disjoint diagnostic `d2` is carried over with only
its positions remapped, and the overlapping diagnostic `d1` is dropped with
its remapped span appended. -/
theorem reconcileDiagnostics_step_characterization_witness :
    (reconcileDiagnostics "remark-lint" ([] ++ (diagSample2, 16, 19) :: []) [] [⟨0, 10⟩]
        = reconcileDiagnostics "remark-lint" []
            ((reconcileDiagnostics "remark-lint" [] [] [⟨0, 10⟩]).1
              ++ [{ diagSample2 with fromPos := 16, toPos := 19 }])
            (reconcileDiagnostics "remark-lint" [] [] [⟨0, 10⟩]).2) ∧
    (reconcileDiagnostics "remark-lint" ([] ++ (diagSample1, 5, 20) :: []) [] [⟨0, 10⟩]
        = reconcileDiagnostics "remark-lint" []
            (reconcileDiagnostics "remark-lint" [] [] [⟨0, 10⟩]).1
            ((reconcileDiagnostics "remark-lint" [] [] [⟨0, 10⟩]).2 ++ [⟨5, 20⟩])) :=
  ⟨(reconcileDiagnostics_step_characterization "remark-lint" [] []
      diagSample2 16 19 [] [⟨0, 10⟩]).1 (by decide) (by decide),
   (reconcileDiagnostics_step_characterization "remark-lint" [] []
      diagSample1 5 20 [] [⟨0, 10⟩]).2 (by decide) (by decide)⟩

/-! ## Heading-ID derivation (`headingToID`, table-of-contents field)

The source drives this with JavaScript regular expressions.  They are
embedded via a small backtracking matcher over a pattern AST (`RItem`): each
source regex becomes one pattern list below, with greedy quantifiers and
leftmost-match semantics as in JavaScript.  `.` excludes line terminators;
negated classes do not.  Character classes are modelled at ASCII precision
(the claim's inputs are ASCII). -/

inductive RItem where
  /-- literal string, case-sensitive -/
  | lit (s : String)
  /-- literal string, case-insensitive (`/i` flag) -/
  | ilit (s : String)
  /-- single-character class with greedy quantifier `{lo, hi}` (`hi = none`
  is unbounded); `cap` marks the capture group -/
  | cls (p : Char → Bool) (lo : Nat) (hi : Option Nat) (cap : Bool)
  /-- `$` -/
  | endAnchor

/-- Case-insensitive prefix test for `ilit`. -/
def ciStarts : List Char → List Char → Bool
  | [], _ => true
  | _ :: _, [] => false
  | p :: ps, c :: cs => (p.toLower == c.toLower) && ciStarts ps cs

/-- `[hi, hi - 1, ..., lo]`: candidate repetition counts for a greedy
quantifier, largest first. -/
def descRange (hi lo : Nat) : List Nat :=
  (List.range' lo (hi + 1 - lo)).reverse

/-- Match a pattern list against a prefix of `cs`, returning the unmatched
suffix and the capture (if the pattern's capture group matched).  Greedy
quantifiers try the largest count first and backtrack.  The fuel decreases
on every pattern item; `execSearch` supplies `items.length + 1`, which is
exactly the depth of any match attempt. -/
def matchRun : Nat → List RItem → List Char → Option (List Char × Option (List Char))
  | 0, _, _ => none
  | _ + 1, [], cs => some (cs, none)
  | fuel + 1, .lit t :: rest, cs =>
    if t.toList.isPrefixOf cs then matchRun fuel rest (cs.drop t.toList.length) else none
  | fuel + 1, .ilit t :: rest, cs =>
    if ciStarts t.toList cs then matchRun fuel rest (cs.drop t.toList.length) else none
  | fuel + 1, .endAnchor :: rest, cs =>
    if cs.isEmpty then matchRun fuel rest cs else none
  | fuel + 1, .cls p lo hi cap :: rest, cs =>
    let avail := (cs.takeWhile p).length
    let top := match hi with | some h => min avail h | none => avail
    (descRange top lo).findSome? (fun k =>
      match matchRun fuel rest (cs.drop k) with
      | some (r, c) => some (r, if cap then some (cs.take k) else c)
      | none => none)

/-- Leftmost-match search (`RegExp.prototype.exec`): try every start
position in order; return the start position, the match length and the
capture. -/
def execSearch (items : List RItem) : List Char → Nat → Option (Nat × Nat × Option (List Char))
  | cs, pos =>
    match matchRun (items.length + 1) items cs with
    | some (r, c) => some (pos, cs.length - r.length, c)
    | none =>
      match cs with
      | [] => none
      | _ :: tl => execSearch items tl (pos + 1)

/-- `String.prototype.replace` with a non-global regex: replace the first
match only. -/
def replaceOnce (items : List RItem) (repl : Option (List Char) → List Char)
    (s : List Char) : List Char :=
  match execSearch items s 0 with
  | none => s
  | some (pos, len, cap) => s.take pos ++ repl cap ++ s.drop (pos + len)

/-- `String.prototype.replace` with a `/g` regex: repeatedly replace the
leftmost match, continuing after the replaced segment.  All patterns used
here consume at least one character, so `s.length + 1` rounds of fuel
always suffice (a zero-length match stops the loop defensively). -/
def replaceGlobalAux (items : List RItem) (repl : Option (List Char) → List Char) :
    Nat → List Char → List Char
  | 0, s => s
  | fuel + 1, s =>
    match execSearch items s 0 with
    | none => s
    | some (pos, len, cap) =>
      if len = 0 then s
      else s.take pos ++ repl cap ++ replaceGlobalAux items repl fuel (s.drop (pos + len))

def replaceGlobal (items : List RItem) (repl : Option (List Char) → List Char)
    (s : List Char) : List Char :=
  replaceGlobalAux items repl (s.length + 1) s

/-- The JavaScript replacement string `'$1'`: the first capture when the
pattern has a capture group, the literal text `$1` otherwise. -/
def dollarOne (cap : Option (List Char)) : List Char :=
  match cap with
  | some c => c
  | none => "$1".toList

/-- JavaScript `\s` at ASCII precision (space, tab, line feed, carriage
return, vertical tab, form feed). -/
def jsWs (c : Char) : Bool :=
  c == ' ' || c == '\t' || c == '\n' || c == '\r' || c == '\x0b' || c == '\x0c'

/-- JavaScript `.`: any character except a line terminator. -/
def reDot (c : Char) : Bool :=
  c != '\n' && c != '\r'

def isQuoteChar (c : Char) : Bool :=
  c == Char.ofNat 39 || c == '"'

def isFmtChar (c : Char) : Bool :=
  c == '*' || c == '_'

def isBacktickChar (c : Char) : Bool :=
  c == Char.ofNat 96

/-- `/\{(.+)\}$/` — Pandoc attribute block at the end of the heading. -/
def rePandocAttrs : List RItem :=
  [.lit "\x7b", .cls reDot 1 none true, .lit "\x7d", .endAnchor]

/-- `/<a(?:.+)name=['"]?([^'"]+)['"]?(?:.*)>(?:.*)<\/a>/i` — named anchor. -/
def reNamedAnchor : List RItem :=
  [.ilit "<a", .cls reDot 1 none false, .ilit "name=",
   .cls isQuoteChar 0 (some 1) false, .cls (fun c => ! isQuoteChar c) 1 none true,
   .cls isQuoteChar 0 (some 1) false, .cls reDot 0 none false, .lit ">",
   .cls reDot 0 none false, .ilit "</a>"]

/-- `/<.+>/i` — HTML element removal (first match only; no `/g`). -/
def reHtml : List RItem :=
  [.lit "<", .cls reDot 1 none false, .lit ">"]

/-- `/[*_]{1,3}(.+)[*_]{1,3}/g` — bold/italic formatting. -/
def reFormatting : List RItem :=
  [.cls isFmtChar 1 (some 3) false, .cls reDot 1 none true, .cls isFmtChar 1 (some 3) false]

/-- `` /`[^`]+`/g `` — inline code (note: this pattern has no capture group,
so the source's replacement string `'$1'` inserts the literal text `$1`). -/
def reCode : List RItem :=
  [.cls isBacktickChar 1 (some 1) false, .cls (fun c => ! isBacktickChar c) 1 none false,
   .cls isBacktickChar 1 (some 1) false]

/-- `/\[.+\]\(.+\)/g` — Markdown links. -/
def reLink : List RItem :=
  [.lit "[", .cls reDot 1 none false, .lit "]", .lit "(", .cls reDot 1 none false, .lit ")"]

/-- `/\[\^.+\]/g` — footnotes. -/
def reFootnote : List RItem :=
  [.lit "[^", .cls reDot 1 none false, .lit "]"]

/-- `String.prototype.trim` on a character list. -/
def jsTrimList (l : List Char) : List Char :=
  ((l.dropWhile jsWs).reverse.dropWhile jsWs).reverse

/-- `String.prototype.split(' ')`: split at every single space, keeping
empty segments. -/
def splitOnSpace : List Char → List (List Char)
  | [] => [[]]
  | c :: rest =>
    if c == ' ' then [] :: splitOnSpace rest
    else
      match splitOnSpace rest with
      | g :: gs => (c :: g) :: gs
      | [] => [[c]]

def startsHash : List Char → Bool
  | c :: _ => c == '#'
  | [] => false

/-- The Pandoc-attribute branch of `headingToID`: if the heading ends in
`{...}`, split the attribute text on spaces, trim, drop empties, and return
the first attribute starting with `#` (without the `#`). -/
def pandocAttrID (cs : List Char) : Option (List Char) :=
  match execSearch rePandocAttrs cs 0 with
  | some (_, _, some capture) =>
    let attrs := ((splitOnSpace capture).map jsTrimList).filter (fun x => decide (x ≠ []))
    match attrs.find? startsHash with
    | some idAttr => some (idAttr.drop 1)
    | none => none
  | _ => none

/-- The named-anchor branch of `headingToID`: the capture of the anchor
regex. -/
def anchorID (cs : List Char) : Option (List Char) :=
  match execSearch reNamedAnchor cs 0 with
  | some (_, _, some capture) => some capture
  | _ => none

def isSlugKeep (c : Char) : Bool :=
  c.isAlpha || c.isDigit || c == '_' || c == '.' || c == '-'

def isLowerAlpha (c : Char) : Bool :=
  c.isLower

/-- The slug branch of `headingToID`, transform by transform in source
order: strip one HTML element, strip `*_` formatting (replacement `'$1'`),
replace inline code (whose replacement is the literal `$1` — the pattern has
no group), drop links and footnotes, hyphenate whitespace, drop everything
but alphanumerics and `_.-`, lowercase, cut everything before the first
lowercase letter (index 0 when there is none), and fall back to
`"section"` when nothing is left. -/
def slugID (cs : List Char) : List Char :=
  let t1 := replaceOnce reHtml (fun _ => []) cs
  let t2 := replaceGlobal reFormatting dollarOne t1
  let t3 := replaceGlobal reCode dollarOne t2
  let t4 := replaceGlobal reLink (fun _ => []) t3
  let t5 := replaceGlobal reFootnote (fun _ => []) t4
  let t6 := t5.map (fun c => if jsWs c then '-' else c)
  let t7 := t6.filter isSlugKeep
  let t8 := t7.map Char.toLower
  let firstLetter := match t8.findIdx? isLowerAlpha with
    | some i => i
    | none => 0
  let t9 := t8.drop firstLetter
  if t9.isEmpty then "section".toList else t9

/-- `headingToID` (table-of-contents field): explicit Pandoc attribute id,
then named-anchor id, then the slug of the remaining text. -/
def headingToID (headingString : String) : String :=
  let cs := headingString.toList
  match pandocAttrID cs with
  | some idv => String.mk idv
  | none =>
    match anchorID cs with
    | some idv => String.mk idv
    | none => String.mk (slugID cs)

/-- C8.  Heading IDs follow the fixed precedence explicit attribute id >
named-anchor id > slug: `"Header {#custom-id}"` yields `"custom-id"`,
`"Hello World!"` yields `"hello-world"`, the empty-after-stripping heading
`"!!!"` yields the fallback `"section"`; a named anchor supplies the id when
no attribute id exists, and an attribute id beats a named anchor. -/
theorem headingToID_cases :
    headingToID "Header \x7b#custom-id\x7d" = "custom-id" ∧
    headingToID "Hello World!" = "hello-world" ∧
    headingToID "!!!" = "section" ∧
    headingToID "Head <a name=\"foo\"></a>" = "foo" ∧
    headingToID "Head <a name=\"foo\"></a> \x7b#bar\x7d" = "bar" := by
  refine ⟨by decide, by decide, by decide, by decide, by decide⟩

/-! ## Incremental word/character counter (`countField`,
plugins/statistics-fields.ts)

The buffer is a list of characters.  The counting collaborators are not part
of the sources and are modelled from the specification. -/

/-- Modelled from the spec: "a word is a maximal run of letter/number code
points under Unicode categorization" — at ASCII precision, a letter or
digit. -/
def wordChar (c : Char) : Bool :=
  c.isAlpha || c.isDigit

/-- Modelled from the spec: the Markdown parser collaborator is opaque and
deterministic; for counting purposes the tree of a text is abstracted to
the text itself. -/
def markdownToAST (s : List Char) : List Char := s

/-- `{words, chars}` as accumulated by `countField`.  The source mutates
JavaScript numbers with signed deltas, so both components are integers. -/
structure Counts where
  words : Int
  chars : Int
deriving DecidableEq, Repr

/-- Word-count accumulator: `prev` tells whether the previous character was
a word character; a word character starts a new word exactly when `prev` is
false. -/
def cwAux : Bool → List Char → Nat
  | _, [] => 0
  | prev, c :: rest => (if wordChar c && ! prev then 1 else 0) + cwAux (wordChar c) rest

/-- Number of maximal word-character runs. -/
def countWords (l : List Char) : Nat := cwAux false l

/-- Number of non-whitespace characters. -/
def countChars (l : List Char) : Nat := (l.filter (fun c => ! jsWs c)).length

/-- Modelled from the spec: `countAll` satisfies "CountState equals the sum,
over the whole buffer, of word/char counts of all non-whitespace runs under
the analysis rules" — with the spec's word notion, the word count of a text
is its number of maximal letter/number runs, and the char count its number
of non-whitespace characters. -/
def countAll (ast : List Char) : Counts :=
  ⟨countWords ast, countChars ast⟩

/-- Length of the word-character run ending at position `pos`. -/
def backRun (doc : List Char) (pos : Nat) : Nat :=
  ((doc.take pos).reverse.takeWhile wordChar).length

/-- Length of the word-character run starting at position `pos`. -/
def fwdRun (doc : List Char) (pos : Nat) : Nat :=
  ((doc.drop pos).takeWhile wordChar).length

/-- Modelled from the spec: the editor's `state.wordAt(pos)` (word policy of
the BlockExpander): the maximal word-character run around `pos`, `null` when
no word character is adjacent on either side. -/
def wordAt (doc : List Char) (pos : Nat) : Option MRange :=
  if backRun doc pos = 0 ∧ fwdRun doc pos = 0 then none
  else some ⟨pos - backRun doc pos, pos + fwdRun doc pos⟩

/-- `state.sliceDoc(start, end)`. -/
def sliceDoc (doc : List Char) (a b : Nat) : List Char :=
  (doc.drop a).take (b - a)

/-- The test `/^\p{L}$|^\p{N}$/u.test(text.trim())`: the trimmed text is a
single letter or digit. -/
def singleLetterOrDigit (l : List Char) : Bool :=
  match l with
  | [c] => wordChar c
  | _ => false

/-- The `start` assignment of `processSegment`: `startWord === null ? from :
startWord.from`. -/
def segStart (doc : List Char) (p : Nat) : Nat :=
  match wordAt doc p with
  | none => p
  | some w => w.fromPos

/-- The `end` assignment of `processSegment`: `endWord === null ? to :
endWord.to`. -/
def segStop (doc : List Char) (p : Nat) : Nat :=
  match wordAt doc p with
  | none => p
  | some w => w.toPos

/-- `processSegment` of `countField.update` (statistics-fields.ts): expand
`[a, b]` to the word boundaries reported by `wordAt`, count the covered
text, correct the lone-letter/digit case, and add the counts with the given
sign to the accumulator. -/
def processSegment (doc : List Char) (a b : Nat) (sign : Int) (acc : Counts) : Counts :=
  let text := sliceDoc doc (segStart doc a) (segStop doc b)
  let counts0 := countAll (markdownToAST text)
  let counts := if counts0.words = 0 ∧ singleLetterOrDigit (jsTrimList text)
    then (⟨1, 1⟩ : Counts) else counts0
  ⟨acc.words + sign * counts.words, acc.chars + sign * counts.chars⟩

/-- One replacement `[fromA, toA) -> insert`, in coordinates of the
document before the transaction. -/
structure ChangeRange where
  fromA : Nat
  toA : Nat
  insert : List Char
deriving DecidableEq, Repr

/-- Apply a sorted, non-overlapping list of changes: `base` is the number of
characters of the original document already consumed, so a change at
absolute position `fromA` starts at `fromA - base` of the remaining text. -/
def applyChangesAux (doc : List Char) (base : Nat) : List ChangeRange → List Char
  | [] => doc
  | c :: rest =>
    doc.take (c.fromA - base) ++ c.insert
      ++ applyChangesAux (doc.drop (c.toA - base)) c.toA rest

/-- Apply a sorted, non-overlapping list of changes. -/
def applyChanges (doc : List Char) (changes : List ChangeRange) : List Char :=
  applyChangesAux doc 0 changes

/-- A transaction: the document before the edit plus its change list. -/
structure Transaction where
  startDoc : List Char
  changes : List ChangeRange
deriving DecidableEq, Repr

/-- `transaction.docChanged`. -/
def Transaction.docChanged (tr : Transaction) : Bool :=
  ! tr.changes.isEmpty

/-- `transaction.newDoc` / `transaction.state.doc`. -/
def Transaction.newDoc (tr : Transaction) : List Char :=
  applyChanges tr.startDoc tr.changes

/-- `iterChanges`: the `(fromA, toA, fromB, toB)` quadruples of a change
list, old-side coordinates as given and new-side coordinates accumulated
through the signed length shift of the earlier changes. -/
def iterChangesList (shift : Int) : List ChangeRange → List (Nat × Nat × Nat × Nat)
  | [] => []
  | c :: rest =>
    (c.fromA, c.toA, ((c.fromA : Int) + shift).toNat,
      ((c.fromA : Int) + shift).toNat + c.insert.length)
      :: iterChangesList (shift + c.insert.length - ((c.toA : Int) - (c.fromA : Int))) rest

/-- `countField.create` (statistics-fields.ts): full count of the whole
buffer. -/
def countFieldCreate (doc : List Char) : Counts :=
  countAll (markdownToAST doc)

/-- `countField.update` (statistics-fields.ts): return the value unchanged
when the document did not change; otherwise, for every changed range,
subtract the counts of the word-expanded old segment and add the counts of
the word-expanded new segment. -/
def countFieldUpdate (value : Counts) (tr : Transaction) : Counts :=
  if ! tr.docChanged then value
  else
    (iterChangesList 0 tr.changes).foldl
      (fun acc q =>
        processSegment tr.newDoc q.2.2.1 q.2.2.2 1
          (processSegment tr.startDoc q.1 q.2.1 (-1) acc))
      value

def driftTr : Transaction :=
  ⟨"ab".toList, [⟨0, 0, "x".toList⟩, ⟨1, 1, "y".toList⟩]⟩

/-- C1, counterexample.  The delta accumulation drifts on a transaction
with two changed ranges whose word expansions overlap: inserting `"x"` at 0
and `"y"` at 1 into the buffer `"ab"` yields `"xayb"`, whose full recount is
1 word and 4 characters, but the incremental update subtracts the whole
word `"ab"` twice and adds the whole word `"xayb"` twice, ending at 6
characters. -/
theorem countField_two_ranges_drift :
    driftTr.newDoc = "xayb".toList ∧
    countFieldUpdate (countFieldCreate ("ab".toList)) driftTr = ⟨1, 6⟩ ∧
    countFieldCreate ("xayb".toList) = ⟨1, 4⟩ ∧
    countFieldUpdate (countFieldCreate ("ab".toList)) driftTr
      ≠ countFieldCreate driftTr.newDoc := by
  refine ⟨by decide, by decide, by decide, by decide⟩

/-! ### The no-drift property for single-range edits -/

/-- Whether a word run is in progress after scanning `u`, starting from
state `p`: the last character of `u` decides, `p` when `u` is empty. -/
def lastFlag (p : Bool) (u : List Char) : Bool :=
  match u.getLast? with
  | some c => wordChar c
  | none => p

lemma lastFlag_cons (p : Bool) (c : Char) (u : List Char) :
    lastFlag p (c :: u) = lastFlag (wordChar c) u := by
  cases u with
  | nil => rfl
  | cons d u => rfl

lemma cwAux_append (v : List Char) :
    ∀ (u : List Char) (p : Bool), cwAux p (u ++ v) = cwAux p u + cwAux (lastFlag p u) v := by
  intro u
  induction u with
  | nil => intro p; simp [cwAux, lastFlag]
  | cons c u ih =>
    intro p
    simp only [List.cons_append, cwAux, List.append_eq, ih (wordChar c), lastFlag_cons]
    omega

lemma cwAux_head_nonword (v : List Char) (p : Bool)
    (h : ∀ c, v.head? = some c → wordChar c = false) : cwAux p v = cwAux false v := by
  cases v with
  | nil => rfl
  | cons c rest =>
    have hc : wordChar c = false := h c rfl
    simp [cwAux, hc]

lemma countWords_three_split (P X S : List Char)
    (hP : ∀ c, P.getLast? = some c → wordChar c = false)
    (hS : ∀ c, S.head? = some c → wordChar c = false) :
    countWords (P ++ X ++ S) = countWords P + countWords X + countWords S := by
  unfold countWords
  rw [List.append_assoc, cwAux_append (X ++ S) P false]
  have hflag : lastFlag false P = false := by
    unfold lastFlag
    cases hL : P.getLast? with
    | none => rfl
    | some c => exact hP c hL
  rw [hflag, cwAux_append S X false, cwAux_head_nonword S (lastFlag false X) hS]
  omega

lemma countChars_append (u v : List Char) :
    countChars (u ++ v) = countChars u + countChars v := by
  simp [countChars]

lemma head_dropWhile_false (p : Char → Bool) :
    ∀ (l : List Char) (c : Char), (l.dropWhile p).head? = some c → p c = false := by
  intro l
  induction l with
  | nil => intro c h; simp [List.dropWhile] at h
  | cons a l ih =>
    intro c h
    by_cases hp : p a
    · rw [List.dropWhile_cons_of_pos hp] at h
      exact ih c h
    · rw [List.dropWhile_cons_of_neg hp] at h
      simp only [List.head?_cons, Option.some.injEq] at h
      subst h
      simpa using hp

lemma takeWhile_length_le (p : Char → Bool) :
    ∀ l : List Char, (l.takeWhile p).length ≤ l.length := by
  intro l
  induction l with
  | nil => simp
  | cons a l ih =>
    by_cases hp : p a
    · rw [List.takeWhile_cons_of_pos hp]
      simpa using ih
    · rw [List.takeWhile_cons_of_neg hp]
      simp

lemma drop_takeWhile_length (p : Char → Bool) (l : List Char) :
    l.drop (l.takeWhile p).length = l.dropWhile p := by
  have h := List.drop_left (l.takeWhile p) (l.dropWhile p)
  rwa [List.takeWhile_append_dropWhile] at h

lemma reverse_drop_reverse (l : List Char) (k : Nat) :
    (l.reverse.drop k).reverse = l.take (l.length - k) := by
  rw [List.reverse_drop]
  simp

lemma backRun_le (doc : List Char) (p : Nat) : backRun doc p ≤ p := by
  unfold backRun
  have h1 := takeWhile_length_le wordChar (doc.take p).reverse
  have h2 : (doc.take p).reverse.length = (doc.take p).length := List.length_reverse _
  have h3 : (doc.take p).length ≤ p := by
    rw [List.length_take]
    omega
  omega

lemma fwdRun_add_le (doc : List Char) (b : Nat) (h : b ≤ doc.length) :
    b + fwdRun doc b ≤ doc.length := by
  unfold fwdRun
  have h1 := takeWhile_length_le wordChar (doc.drop b)
  have h2 : (doc.drop b).length = doc.length - b := List.length_drop b doc
  omega

lemma segStart_eq (doc : List Char) (p : Nat) : segStart doc p = p - backRun doc p := by
  unfold segStart wordAt
  by_cases h : backRun doc p = 0 ∧ fwdRun doc p = 0
  · rw [if_pos h, h.1]
    simp
  · rw [if_neg h]

lemma segStop_eq (doc : List Char) (p : Nat) : segStop doc p = p + fwdRun doc p := by
  unfold segStop wordAt
  by_cases h : backRun doc p = 0 ∧ fwdRun doc p = 0
  · rw [if_pos h, h.2]
    simp
  · rw [if_neg h]

lemma countWords_zero_no_wordChar :
    ∀ l : List Char, countWords l = 0 → ∀ c ∈ l, wordChar c = false := by
  unfold countWords
  intro l
  induction l with
  | nil => intro _ c hc; simp at hc
  | cons a l ih =>
    intro h c hc
    simp only [cwAux] at h
    by_cases ha : wordChar a
    · simp [ha] at h
    · have ha2 : wordChar a = false := by simpa using ha
      rcases List.mem_cons.mp hc with rfl | hc
      · exact ha2
      · have h2 : cwAux false l = 0 := by
          rw [ha2] at h
          simpa using h
        exact ih h2 c hc

lemma mem_jsTrimList {c : Char} {l : List Char} (h : c ∈ jsTrimList l) : c ∈ l := by
  unfold jsTrimList at h
  rw [List.mem_reverse] at h
  have h1 := (List.dropWhile_sublist jsWs).subset h
  rw [List.mem_reverse] at h1
  exact (List.dropWhile_sublist jsWs).subset h1

lemma hack_inert (t : List Char) (h : countWords t = 0) :
    singleLetterOrDigit (jsTrimList t) = false := by
  unfold singleLetterOrDigit
  match htrim : jsTrimList t with
  | [] => rfl
  | c :: d :: rest => rfl
  | [c] =>
    have hc : c ∈ jsTrimList t := by rw [htrim]; exact List.mem_singleton_self c
    exact countWords_zero_no_wordChar t h c (mem_jsTrimList hc)

lemma processSegment_eval (doc : List Char) (a b : Nat) (sign : Int) (acc : Counts) :
    processSegment doc a b sign acc
      = ⟨acc.words + sign * countWords (sliceDoc doc (a - backRun doc a) (b + fwdRun doc b)),
         acc.chars + sign * countChars (sliceDoc doc (a - backRun doc a) (b + fwdRun doc b))⟩ := by
  simp only [processSegment, segStart_eq, segStop_eq, markdownToAST, countAll]
  by_cases h : countWords (sliceDoc doc (a - backRun doc a) (b + fwdRun doc b)) = 0
  · rw [if_neg]
    intro hcond
    rw [hack_inert _ h] at hcond
    exact absurd hcond.2 (by simp)
  · rw [if_neg]
    intro hcond
    have := hcond.1
    simp only [Int.natCast_eq_zero] at this
    exact h this

lemma three_split (l : List Char) (s e : Nat) (h1 : s ≤ e) (_h2 : e ≤ l.length) :
    l = l.take s ++ sliceDoc l s e ++ l.drop e := by
  unfold sliceDoc
  conv_lhs => rw [← List.take_append_drop s l]
  rw [List.append_assoc]
  congr 1
  conv_lhs => rw [← List.take_append_drop (e - s) (l.drop s)]
  congr 1
  rw [List.drop_drop]
  congr 1
  omega

lemma take_backRun_last (doc : List Char) (a : Nat) (ha : a ≤ doc.length) :
    ∀ c, (doc.take (a - backRun doc a)).getLast? = some c → wordChar c = false := by
  intro c hc
  have hlenTake : (doc.take a).length = a := by rw [List.length_take]; omega
  have h1 : doc.take (a - backRun doc a) = (doc.take a).take (a - backRun doc a) := by
    rw [List.take_take]
    congr 1
    omega
  have h2 : (doc.take a).take (a - backRun doc a)
      = ((doc.take a).reverse.drop (backRun doc a)).reverse := by
    rw [reverse_drop_reverse, hlenTake]
  have h3 : (doc.take a).reverse.drop (backRun doc a)
      = (doc.take a).reverse.dropWhile wordChar := by
    unfold backRun
    exact drop_takeWhile_length wordChar (doc.take a).reverse
  rw [h1, h2, h3, List.getLast?_reverse] at hc
  exact head_dropWhile_false wordChar _ c hc

lemma drop_fwdRun_head (doc : List Char) (b : Nat) :
    ∀ c, (doc.drop (b + fwdRun doc b)).head? = some c → wordChar c = false := by
  intro c hc
  have h1 : doc.drop (b + fwdRun doc b) = (doc.drop b).drop (fwdRun doc b) := by
    rw [List.drop_drop]
  have h2 : (doc.drop b).drop (fwdRun doc b) = (doc.drop b).dropWhile wordChar := by
    unfold fwdRun
    exact drop_takeWhile_length wordChar (doc.drop b)
  rw [h1, h2] at hc
  exact head_dropWhile_false wordChar _ c hc

lemma countField_single_edit (doc : List Char) (a b : Nat) (ins : List Char)
    (hab : a ≤ b) (hb : b ≤ doc.length) :
    countFieldUpdate (countFieldCreate doc) ⟨doc, [⟨a, b, ins⟩]⟩
      = countFieldCreate (Transaction.newDoc ⟨doc, [⟨a, b, ins⟩]⟩) := by
  have hN : Transaction.newDoc ⟨doc, [⟨a, b, ins⟩]⟩ = doc.take a ++ ins ++ doc.drop b := by
    simp [Transaction.newDoc, applyChanges, applyChangesAux]
  set N := doc.take a ++ ins ++ doc.drop b with hNdef
  set k := backRun doc a with hk
  set m := fwdRun doc b with hm
  have hupd : countFieldUpdate (countFieldCreate doc) ⟨doc, [⟨a, b, ins⟩]⟩
      = processSegment N a (a + ins.length) 1
          (processSegment doc a b (-1) (countFieldCreate doc)) := by
    simp [countFieldUpdate, Transaction.docChanged, iterChangesList, hN]
  have hlenTake : (doc.take a).length = a := by rw [List.length_take]; omega
  have hNa : N.take a = doc.take a := by
    rw [hNdef, List.append_assoc, List.take_append_of_le_length (by omega)]
    rw [List.take_take]
    congr 1
    omega
  have hkN : backRun N a = k := by
    rw [hk]
    unfold backRun
    rw [hNa]
  have hNdrop : N.drop (a + ins.length) = doc.drop b := by
    have hlen2 : (doc.take a ++ ins).length = a + ins.length := by
      simp [hlenTake]
    rw [hNdef, ← hlen2, List.drop_left]
  have hmN : fwdRun N (a + ins.length) = m := by
    rw [hm]
    unfold fwdRun
    rw [hNdrop]
  have hkle : k ≤ a := backRun_le doc a
  have hse : a - k ≤ b + m := by omega
  have heD : b + m ≤ doc.length := fwdRun_add_le doc b hb
  have hNlen : N.length = a + ins.length + (doc.length - b) := by
    rw [hNdef]
    simp only [List.length_append, List.length_drop, hlenTake]
  have he2 : (a + ins.length) + m ≤ N.length := by
    have h0 : a + ins.length ≤ N.length := by omega
    have := fwdRun_add_le N (a + ins.length) h0
    rw [hmN] at this
    exact this
  set P := doc.take (a - k) with hP
  set S := doc.drop (b + m) with hS
  set X := sliceDoc doc (a - k) (b + m) with hX
  set Y := sliceDoc N (a - k) ((a + ins.length) + m) with hY
  have hDsplit : doc = P ++ X ++ S := three_split doc (a - k) (b + m) hse heD
  have hNtake : N.take (a - k) = P := by
    rw [hNdef, List.append_assoc, List.take_append_of_le_length (by omega)]
    rw [List.take_take, hP]
    congr 1
    omega
  have hNdrop2 : N.drop ((a + ins.length) + m) = S := by
    have h1 : N.drop ((a + ins.length) + m) = (N.drop (a + ins.length)).drop m := by
      rw [List.drop_drop]
    rw [h1, hNdrop, List.drop_drop, hS]
  have hNsplit : N = P ++ Y ++ S := by
    have h0 := three_split N (a - k) ((a + ins.length) + m) (by omega) he2
    rw [hNtake, hNdrop2, ← hY] at h0
    exact h0
  have hPend : ∀ c, P.getLast? = some c → wordChar c = false := by
    rw [hP, hk]
    exact take_backRun_last doc a (by omega)
  have hShead : ∀ c, S.head? = some c → wordChar c = false := by
    rw [hS, hm]
    exact drop_fwdRun_head doc b
  have hcwD : countWords doc = countWords P + countWords X + countWords S := by
    conv_lhs => rw [hDsplit]
    exact countWords_three_split P X S hPend hShead
  have hcwN : countWords N = countWords P + countWords Y + countWords S := by
    conv_lhs => rw [hNsplit]
    exact countWords_three_split P Y S hPend hShead
  have hccD : countChars doc = countChars P + countChars X + countChars S := by
    conv_lhs => rw [hDsplit]
    rw [countChars_append, countChars_append]
  have hccN : countChars N = countChars P + countChars Y + countChars S := by
    conv_lhs => rw [hNsplit]
    rw [countChars_append, countChars_append]
  rw [hN, hupd, processSegment_eval, processSegment_eval, hkN, hmN]
  simp only [countFieldCreate, countAll, markdownToAST, ← hX, ← hY]
  rw [Counts.mk.injEq]
  constructor
  · omega
  · omega

/-- Well-formedness of a sequence of single-range edits: each change's
bounds are ordered and inside the document it applies to. -/
def WfSeq : List Char → List ChangeRange → Prop
  | _, [] => True
  | doc, c :: rest => c.fromA ≤ c.toA ∧ c.toA ≤ doc.length ∧ WfSeq (applyChanges doc [c]) rest

/-- Apply single-range edits one transaction at a time. -/
def applyEditSeq : List Char → List ChangeRange → List Char
  | doc, [] => doc
  | doc, c :: rest => applyEditSeq (applyChanges doc [c]) rest

/-- Run `countField.update` across a sequence of single-range transactions. -/
def updateSeq : Counts → List Char → List ChangeRange → Counts
  | v, _, [] => v
  | v, doc, c :: rest => updateSeq (countFieldUpdate v ⟨doc, [c]⟩) (applyChanges doc [c]) rest

lemma seq_no_drift : ∀ (edits : List ChangeRange) (doc : List Char), WfSeq doc edits →
    updateSeq (countFieldCreate doc) doc edits = countFieldCreate (applyEditSeq doc edits) := by
  intro edits
  induction edits with
  | nil => intro doc _; rfl
  | cons c rest ih =>
    intro doc hwf
    obtain ⟨cf, ct, ci⟩ := c
    simp only [WfSeq] at hwf
    obtain ⟨h1, h2, h3⟩ := hwf
    simp only [updateSeq, applyEditSeq]
    rw [countField_single_edit doc cf ct ci h1 h2]
    exact ih _ h3

/-- C1, amended.  The incremental counter does not drift across
**single-range** edits: for every transaction replacing one range (and hence
for every sequence of such transactions), the delta-updated `{words, chars}`
state equals the full recount of the resulting buffer; in particular the
buffer `"one two three"` counts 3 words, and replacing `"two"` by
`"twotwo"` leaves the incremental count at 3 words (14 characters), equal
to the full recount.  (For transactions containing several changed ranges
whose word expansions overlap, the update double-counts and does drift; see
the counterexample.) -/
theorem countField_no_drift_single_edits :
    (∀ (doc : List Char) (a b : Nat) (ins : List Char), a ≤ b → b ≤ doc.length →
      countFieldUpdate (countFieldCreate doc) ⟨doc, [⟨a, b, ins⟩]⟩
        = countFieldCreate (Transaction.newDoc ⟨doc, [⟨a, b, ins⟩]⟩)) ∧
    (∀ (doc : List Char) (edits : List ChangeRange), WfSeq doc edits →
      updateSeq (countFieldCreate doc) doc edits = countFieldCreate (applyEditSeq doc edits)) ∧
    countFieldCreate ("one two three".toList) = ⟨3, 11⟩ ∧
    countFieldUpdate (countFieldCreate ("one two three".toList))
      ⟨"one two three".toList, [⟨4, 7, "twotwo".toList⟩]⟩ = ⟨3, 14⟩ ∧
    countFieldCreate (Transaction.newDoc
      ⟨"one two three".toList, [⟨4, 7, "twotwo".toList⟩]⟩) = ⟨3, 14⟩ :=
  ⟨countField_single_edit, fun doc edits h => seq_no_drift edits doc h,
    by decide, by decide, by decide⟩

/-- Witness for C1's amended theorem at the claim's concrete input: the
delta update for replacing `"two"` by `"twotwo"` in `"one two three"`
agrees with the full recount of the resulting buffer. -/
theorem countField_no_drift_single_edits_witness :
    countFieldUpdate (countFieldCreate ("one two three".toList))
      ⟨"one two three".toList, [⟨4, 7, "twotwo".toList⟩]⟩
      = countFieldCreate (Transaction.newDoc
          ⟨"one two three".toList, [⟨4, 7, "twotwo".toList⟩]⟩) :=
  countField_no_drift_single_edits.1 ("one two three".toList) 4 7 ("twotwo".toList)
    (by decide) (by decide)

/-! ## Table-of-contents field update (`tocField`, table-of-contents field)
and the no-document-change fast path (C10)

The update remaps every stored heading through the transaction's position
mapping, re-checks that the mapped line still parses as a heading, collects
new headings from the changed ranges, then sorts, de-duplicates by line
(keeping the last entry per line) and renumbers.  The position mapper and
the parser are external collaborators and are modelled from the spec. -/

/-- Modelled from the spec: the PositionMapper with "track-after" bias
(`mapPos(pos, 1, MapMode.TrackAfter)`): a position whose following
character was deleted maps to DELETED (`none`); otherwise it shifts by the
accumulated length change of the changes at or before it, a position at an
insertion point moving to the end of the inserted text (assoc 1). -/
def mapPosAux (shift : Int) (pos : Nat) : List ChangeRange → Option Int
  | [] => some ((pos : Int) + shift)
  | c :: rest =>
    if pos < c.fromA then some ((pos : Int) + shift)
    else if pos < c.toA then none
    else mapPosAux (shift + c.insert.length - ((c.toA : Int) - (c.fromA : Int))) pos rest

def mapPosTrackAfter (changes : List ChangeRange) (pos : Nat) : Option Int :=
  mapPosAux 0 pos changes

/-- Split a character buffer into its lines at newline characters. -/
def splitOnNl : List Char → List (List Char)
  | [] => [[]]
  | c :: rest =>
    if c = '\n' then [] :: splitOnNl rest
    else
      match splitOnNl rest with
      | g :: gs => (c :: g) :: gs
      | [] => [[c]]

def linesOf (doc : List Char) : List String :=
  (splitOnNl doc).map (fun l => String.mk l)

/-- Modelled from the spec: the parser collaborator's Heading nodes for a
text, as `(from, level)` pairs — an ATX heading line starts with one to six
`#` followed by a space, its node starting at the line start. -/
def atxLevel (line : List Char) : Option Nat :=
  let hashes := (line.takeWhile (fun c => c = '#')).length
  if 1 ≤ hashes ∧ hashes ≤ 6 ∧ (line.drop hashes).head? = some ' ' then some hashes
  else none

def headingNodesAux (offset : Nat) : List (List Char) → List (Nat × Nat)
  | [] => []
  | l :: rest =>
    (match atxLevel l with
     | some lv => [(offset, lv)]
     | none => []) ++ headingNodesAux (offset + l.length + 1) rest

/-- Modelled from the spec: `extractASTNodes(markdownToAST(text),
'Heading')`, reduced to the `(from, level)` data the field uses. -/
def markdownHeadings (text : List Char) : List (Nat × Nat) :=
  headingNodesAux 0 (splitOnNl text)

def tocLE (a b : ToCEntry) : Prop := a.line ≤ b.line

instance : DecidableRel tocLE := fun a b => Nat.decLe a.line b.line

def sortByLine (l : List ToCEntry) : List ToCEntry :=
  List.insertionSort tocLE l

/-- `Array.from(new Map(entries.map(obj => [obj.line, obj])).values())`:
keys in order of first occurrence, each key keeping the **last** entry with
that line. -/
def firstKeys : List ToCEntry → List Nat
  | [] => []
  | e :: rest => e.line :: (firstKeys rest).filter (fun k => decide (k ≠ e.line))

def dedupByLine (l : List ToCEntry) : List ToCEntry :=
  (firstKeys l).filterMap (fun k => (l.filter (fun e => decide (e.line = k))).getLast?)

/-- `tocField.create`: parse the whole buffer and number the headings. -/
def tocFieldCreate (doc : List Char) : List ToCEntry :=
  let lines := linesOf doc
  generateToc ((markdownHeadings doc).map (fun nd =>
    let n := lineAtNumber lines nd.1
    let lineText := lines.getD (n - 1) ""
    ⟨n, nd.1, lineText, nd.2, "", headingToID lineText⟩))

/-- The remapping half of `tocField.update`: map each stored entry's
position with track-after bias, drop deleted ones, re-parse the mapped
line and keep the entry — with refreshed line number, line-start position
and text — only if the line is still a heading. -/
def tocUpdateRemap (tr : Transaction) (lines : List String) (value : List ToCEntry) :
    List ToCEntry :=
  value.foldl (fun acc entry =>
    match mapPosTrackAfter tr.changes entry.pos with
    | none => acc
    | some np =>
      let n := lineAtNumber lines np.toNat
      let text := lines.getD (n - 1) ""
      if (markdownHeadings text.toList).isEmpty then acc
      else acc ++ [{ entry with line := n, pos := lineStart lines n, text := text }])
    []

/-- The changed-ranges half of `tocField.update`: for each changed range,
take `lineBefore = min(lineAt(fromB).number - 1, 1)` (note the source's
`min`; `newDoc.line(0)` throws, modelled as `none`), slice from that line's
start to the end of `toB`'s line, parse the slice and emit an entry per
heading found (the source resolves the node's text-relative offset against
the whole document, which is embedded as found). -/
def tocUpdateNewEntries (tr : Transaction) (lines : List String) :
    Option (List ToCEntry) :=
  (iterChangesList 0 tr.changes).foldl (fun acc q =>
    match acc with
    | none => none
    | some entries =>
      let lineBefore := min (lineAtNumber lines q.2.2.1 - 1) 1
      if 1 ≤ lineBefore ∧ lineBefore ≤ lines.length then
        let fromOff := lineStart lines lineBefore
        let toOff := lineEnd lines (lineAtNumber lines q.2.2.2)
        let text := sliceDoc tr.newDoc fromOff toOff
        some (entries ++ (markdownHeadings text).map (fun nd =>
          let n := lineAtNumber lines nd.1
          let lineText := lines.getD (n - 1) ""
          ⟨n, lineStart lines n, lineText, nd.2, "", headingToID lineText⟩))
      else none)
    (some [])

/-- `tocField.update` (table-of-contents field): return the previous value
unchanged when the document did not change; otherwise remap the surviving
entries, append the headings found in the changed ranges, sort by line,
de-duplicate keeping the last entry per line, and renumber.  A thrown
`RangeError` (out-of-range line lookup) is modelled as `none`. -/
def tocFieldUpdate (value : List ToCEntry) (tr : Transaction) : Option (List ToCEntry) :=
  if ! tr.docChanged then some value
  else
    let lines := linesOf tr.newDoc
    match tocUpdateNewEntries tr lines with
    | none => none
    | some newEntries =>
      some (generateToc (dedupByLine
        (sortByLine (tocUpdateRemap tr lines value ++ newEntries))))

/-- C10.  For every transaction whose `docChanged` is false, both
`countField.update` and `tocField.update` return their previous value
unchanged (and in particular raise no error), so the derived counts and
outline entries can only change when the buffer text changes. -/
theorem fields_unchanged_without_docChange (tr : Transaction) (v : Counts)
    (toc : List ToCEntry) (h : tr.docChanged = false) :
    countFieldUpdate v tr = v ∧ tocFieldUpdate toc tr = some toc := by
  constructor
  · unfold countFieldUpdate
    rw [h]
    rfl
  · unfold tocFieldUpdate
    rw [h]
    rfl

/-- Witness for C10 at a concrete input: a transaction on `"# t"` with no
changes leaves both fields untouched. -/
theorem fields_unchanged_without_docChange_witness :
    countFieldUpdate ⟨1, 2⟩ ⟨"# t".toList, []⟩ = ⟨1, 2⟩ ∧
    tocFieldUpdate [⟨1, 0, "# t", 1, "1", "t"⟩] ⟨"# t".toList, []⟩
      = some [⟨1, 0, "# t", 1, "1", "t"⟩] :=
  fields_unchanged_without_docChange ⟨"# t".toList, []⟩ ⟨1, 2⟩
    [⟨1, 0, "# t", 1, "1", "t"⟩] (by decide)
